import Mathlib

/-!
Verification of the krpc-mcp documentation-index server
(`src/krpc_mcp/server.py`) against its specification.

The Python source is shallowly embedded: Python `str` becomes `List Char`
(ASCII semantics for case folding and whitespace, which is what the data
handled by the program consists of), Python dicts become insertion-ordered
association lists with Python's assignment semantics, the network and the
HTML parser (`requests` + BeautifulSoup) become an explicit environment
record, and `datetime` timestamps become integer seconds.
-/

set_option maxRecDepth 4000
set_option synthInstance.maxHeartbeats 1000000

/-- Python `str` is embedded as a list of characters. -/
abbrev Str := List Char

/-- ASCII lowercase of one character, embedding `str.lower` for the ASCII
range (the data the program handles is ASCII). -/
def lowerChar (c : Char) : Char :=
  if 'A' ≤ c ∧ c ≤ 'Z' then Char.ofNat (c.toNat + 32) else c

/-- Embeds Python `str.lower()`. -/
def lowerStr (s : Str) : Str := s.map lowerChar

/-- ASCII whitespace, embedding the character class used by `str.strip()`
and `str.split()`. -/
def isSpace (c : Char) : Bool :=
  c = ' ' || c = '\t' || c = '\n' || c = '\x0d' || c = '\x0b' || c = '\x0c'

/-- Embeds Python `str.strip()` (no arguments: strip whitespace at both
ends). -/
def stripBoth (s : Str) : Str :=
  ((s.dropWhile isSpace).reverse.dropWhile isSpace).reverse

theorem dropWhile_length_le {α : Type} (p : α → Bool) :
    ∀ t : List α, (t.dropWhile p).length ≤ t.length := by
  intro t
  induction t with
  | nil => simp
  | cons c t ih =>
    by_cases h : p c
    · simp [List.dropWhile, h]; omega
    · simp [List.dropWhile, h]

/-- Worker for `splitWs`: `acc` is the current in-progress word, reversed. -/
def splitWsAux : Str → Str → List Str
  | [], acc => if acc.isEmpty then [] else [acc.reverse]
  | c :: t, acc =>
    if isSpace c then
      if acc.isEmpty then splitWsAux t [] else acc.reverse :: splitWsAux t []
    else splitWsAux t (c :: acc)

/-- Embeds Python `str.split()` (split on whitespace runs, dropping empty
fields). -/
def splitWs (s : Str) : List Str := splitWsAux s []

/-- Embeds Python `" ".join(s.split())`: collapse whitespace runs to single
spaces and trim the ends. -/
def collapseWs (s : Str) : Str :=
  List.intercalate [' '] (splitWs s)

/-- `startsWithL p s` is true iff `p` is a prefix of `s`
(Python `s.startswith(p)` / the base case of substring search). -/
def startsWithL : Str → Str → Bool
  | [], _ => true
  | _ :: _, [] => false
  | a :: p, b :: s => a = b && startsWithL p s

/-- Embeds Python's substring test `needle in hay`. -/
def inStr (needle : Str) : Str → Bool
  | [] => startsWithL needle []
  | c :: t => startsWithL needle (c :: t) || inStr needle t

/-- Embeds Python `hay.find(needle)`: index of the first occurrence, `-1`
when there is none. -/
def findSub (needle : Str) : Str → Int
  | [] => if startsWithL needle [] then 0 else -1
  | c :: t =>
    if startsWithL needle (c :: t) then 0
    else
      let r := findSub needle t
      if r < 0 then -1 else r + 1

/-- Lexicographic strict order on embedded strings by code point,
embedding Python `str` `<`. -/
def strLt : Str → Str → Bool
  | [], [] => false
  | [], _ :: _ => true
  | _ :: _, [] => false
  | a :: s, b :: t => a < b || (a = b && strLt s t)

/-- Python `str` `<=`. -/
def strLe (a b : Str) : Bool := strLt a b || a = b

/-- Ordered insertion into an already sorted list (before the first
element the new one compares `le` to). -/
def insSorted {α : Type} (le : α → α → Bool) (a : α) : List α → List α
  | [] => [a]
  | b :: l => if le a b then a :: b :: l else b :: insSorted le a l

/-- Embeds Python `list.sort(key=...)`: a stable sort with respect to the
total preorder `le` induced by the key.  Python's sort is stable, and a
stable sort by a total preorder is unique, so insertion sort (processing
elements from the left, each inserted before the first tied element of
the already-sorted remainder, i.e. stable) computes exactly the list
`list.sort` produces. -/
def pySort {α : Type} (le : α → α → Bool) : List α → List α
  | [] => []
  | a :: l => insSorted le a (pySort le l)

theorem insSorted_perm {α : Type} (le : α → α → Bool) (a : α) :
    ∀ l : List α, List.Perm (insSorted le a l) (a :: l) := by
  intro l
  induction l with
  | nil => simp [insSorted]
  | cons b l ih =>
    by_cases h : le a b
    · simp [insSorted, h]
    · simp only [insSorted, h, if_false, Bool.false_eq_true]
      exact (List.Perm.cons b ih).trans (List.Perm.swap a b l)

theorem pySort_perm {α : Type} (le : α → α → Bool) :
    ∀ l : List α, List.Perm (pySort le l) l := by
  intro l
  induction l with
  | nil => simp [pySort]
  | cons a l ih =>
    exact ((insSorted_perm le a (pySort le l)).trans (List.Perm.cons a ih))

theorem insSorted_pairwise {α : Type} (le : α → α → Bool)
    (htrans : ∀ a b c, le a b = true → le b c = true → le a c = true)
    (htot : ∀ a b, le a b = true ∨ le b a = true) (a : α) (l : List α)
    (hl : List.Pairwise (fun x y => le x y = true) l) :
    List.Pairwise (fun x y => le x y = true) (insSorted le a l) := by
  induction l with
  | nil => simp [insSorted]
  | cons b l ih =>
    rcases hl with _ | ⟨hb, hl'⟩
    by_cases h : le a b = true
    · simp only [insSorted, h, if_true]
      refine List.Pairwise.cons ?_ (List.Pairwise.cons hb hl')
      intro y hy
      rcases List.mem_cons.1 hy with hy | hy
      · rw [hy]; exact h
      · exact htrans a b y h (hb y hy)
    · have hba : le b a = true := (htot a b).resolve_left h
      simp only [insSorted, h, if_false, Bool.false_eq_true]
      refine List.Pairwise.cons ?_ (ih hl')
      intro y hy
      rcases List.mem_cons.1 ((insSorted_perm le a l).mem_iff.1 hy) with hy | hy
      · rw [hy]; exact hba
      · exact hb y hy

theorem pySort_pairwise {α : Type} (le : α → α → Bool)
    (htrans : ∀ a b c, le a b = true → le b c = true → le a c = true)
    (htot : ∀ a b, le a b = true ∨ le b a = true) (l : List α) :
    List.Pairwise (fun x y => le x y = true) (pySort le l) := by
  induction l with
  | nil => simp [pySort]
  | cons a l ih => exact insSorted_pairwise le htrans htot a _ ih

/-! ## URL handling

Embedding of `normalize_url`, `allowed`, `page_to_slug` and
`normalize_slug_or_url`, which are built on CPython's
`urllib.parse.urlparse` / `geturl`.  The parser is embedded faithfully
(tab/CR/LF removal, scheme detection with lowercasing, netloc split,
fragment/query split, params split); the two `ValueError` branches of
CPython (`urlsplit`'s unbalanced-IPv6-bracket check and the non-ASCII NFKC
netloc check) are outside the model — inputs are assumed not to trigger
them, which holds for every URL the program constructs. -/

/-- CPython `urlsplit` first lstrips WHATWG C0-control-or-space characters
(code points 0x00–0x20). -/
def c0OrSpace (c : Char) : Bool := c.toNat ≤ 32

/-- CPython `urlsplit` then removes tab, CR and LF wholesale. -/
def stripUnsafe (s : Str) : Str :=
  s.filter (fun c => !(c = '\t' || c = '\x0d' || c = '\n'))

/-- CPython `scheme_chars`: ASCII letters, digits, `+`, `-`, `.`. -/
def schemeChar (c : Char) : Bool :=
  c.isAlpha || c.isDigit || c = '+' || c = '-' || c = '.'

/-- Scheme detection of CPython `urlsplit`: if the text before the first
`:` is nonempty, starts with an ASCII letter and consists of scheme
characters, it is split off and lowercased. Returns `(scheme, rest)`,
with `scheme = []` when no scheme is recognised. -/
def splitScheme (s : Str) : Str × Str :=
  let pre := s.takeWhile (· ≠ ':')
  if pre.length < s.length && !pre.isEmpty &&
      (match s with | c :: _ => c.isAlpha | [] => false) && pre.all schemeChar then
    (pre.map lowerChar, s.drop (pre.length + 1))
  else ([], s)

def netChar (c : Char) : Bool := !(c = '/' || c = '?' || c = '#')

/-- Netloc split of CPython `urlsplit`: when the rest starts with `//`,
the netloc runs up to the first of `/`, `?`, `#`. -/
def splitNetloc (s : Str) : Str × Str :=
  if s.take 2 = ['/', '/'] then
    ((s.drop 2).takeWhile netChar, (s.drop 2).dropWhile netChar)
  else ([], s)

/-- Suffix of `s` after its last `/` (`s` itself when there is none),
matching `url[url.rfind('/'):]` handling inside `_splitparams`. -/
def afterLastSlash : Str → Str
  | [] => []
  | c :: t => if '/' ∈ t then afterLastSlash t else if c = '/' then t else c :: t

/-- CPython `urlparse`'s params split (`_splitparams`, guarded by
`';' in url`): the path is split at the first `;` that follows the last
`/` (or the first `;` at all when there is no `/`). -/
def splitParamsP (path : Str) : Str × Str :=
  if ';' ∈ path then
    if '/' ∈ path then
      let b := afterLastSlash path
      if ';' ∈ b then
        (path.take (path.length - b.length) ++ b.takeWhile (· ≠ ';'),
         (b.dropWhile (· ≠ ';')).tail)
      else (path, [])
    else (path.takeWhile (· ≠ ';'), (path.dropWhile (· ≠ ';')).tail)
  else (path, [])

/-- CPython `urlunparse`'s re-joining of path and params. -/
def rejoinP (pp : Str × Str) : Str :=
  if pp.2.isEmpty then pp.1 else pp.1 ++ ';' :: pp.2

/-- CPython 3.11 `uses_netloc` (the schemes for which `urlunsplit`
re-introduces a `//` authority marker). -/
def usesNetloc : List Str :=
  [[], "ftp".toList, "http".toList, "gopher".toList, "nntp".toList,
   "telnet".toList, "imap".toList, "wais".toList, "file".toList,
   "mms".toList, "https".toList, "shttp".toList, "snews".toList,
   "prospero".toList, "rtsp".toList, "rtsps".toList, "rtspu".toList,
   "rsync".toList, "svn".toList, "svn+ssh".toList, "sftp".toList,
   "nfs".toList, "git".toList, "git+ssh".toList, "ws".toList,
   "wss".toList]

/-- CPython 3.11 `urlunsplit` with query and fragment already cleared
(the `geturl` of `parsed._replace(query="", fragment="")`). -/
def unparseL (sc nl p pr : Str) : Str :=
  let u1 := rejoinP (p, pr)
  let u2 :=
    if !nl.isEmpty || (!sc.isEmpty && sc ∈ usesNetloc && u1.take 2 ≠ ['/', '/']) then
      '/' :: '/' :: (nl ++ (if !u1.isEmpty && u1.take 1 ≠ ['/'] then '/' :: u1 else u1))
    else u1
  if sc.isEmpty then u2 else sc ++ ':' :: u2

/-- Embeds `normalize_url`: parse (CPython 3.11 `urlparse`), clear query
and fragment, unparse (`geturl`). -/
def normalizeL (u : Str) : Str :=
  let s := stripUnsafe (u.dropWhile c0OrSpace)
  let (sc, r1) := splitScheme s
  let (nl, r2) := splitNetloc r1
  let path := (r2.takeWhile (· ≠ '#')).takeWhile (· ≠ '?')
  let (p, pr) := splitParamsP path
  unparseL sc nl p pr

/-- The `.path` attribute of `urlparse(u)` (path after the params split). -/
def urlPath (u : Str) : Str :=
  let s := stripUnsafe (u.dropWhile c0OrSpace)
  let (_, r1) := splitScheme s
  let (_, r2) := splitNetloc r1
  let path := (r2.takeWhile (· ≠ '#')).takeWhile (· ≠ '?')
  (splitParamsP path).1

def krpcMarker : Str := '/' :: 'k' :: 'r' :: 'p' :: 'c' :: '/' :: []

/-- Nat-valued first-occurrence index used for the `split("/krpc/")[-1]`
embedding. -/
def findIdxSub (needle : Str) : Str → Option Nat
  | [] => if startsWithL needle [] then some 0 else none
  | c :: t =>
    if startsWithL needle (c :: t) then some 0
    else match findIdxSub needle t with
      | none => none
      | some i => some (i + 1)

theorem findIdxSub_le (needle : Str) (hne : needle ≠ []) :
    ∀ s i, findIdxSub needle s = some i → i + needle.length ≤ s.length := by
  intro s
  induction s with
  | nil =>
    intro i h
    simp only [findIdxSub] at h
    cases hsw : startsWithL needle [] with
    | false => simp [hsw] at h
    | true => cases needle with
      | nil => exact absurd rfl hne
      | cons a p => simp [startsWithL] at hsw
  | cons c t ih =>
    intro i h
    simp only [findIdxSub] at h
    by_cases hsw : startsWithL needle (c :: t) = true
    · simp [hsw] at h
      subst h
      -- a prefix match bounds the needle length
      have : ∀ (n s : Str), startsWithL n s = true → n.length ≤ s.length := by
        intro n
        induction n with
        | nil => intro s _; simp
        | cons a p ihp =>
          intro s hs
          cases s with
          | nil => simp [startsWithL] at hs
          | cons b t' =>
            simp only [startsWithL, Bool.and_eq_true] at hs
            have := ihp t' hs.2
            simp; omega
      have := this needle (c :: t) hsw
      simpa using this
    · simp [hsw] at h
      cases hfi : findIdxSub needle t with
      | none => simp [hfi] at h
      | some j =>
        simp [hfi] at h
        have := ih j hfi
        simp [← h]; omega

/-- `path.split("/krpc/")[-1]`: the suffix after the final (left-to-right,
non-overlapping) occurrence of `"/krpc/"`, the whole string when the
marker does not occur. -/
def afterMarker (s : Str) : Str :=
  match h : findIdxSub krpcMarker s with
  | none => s
  | some i => afterMarker (s.drop (i + 6))
termination_by s.length
decreasing_by
  have h6 : krpcMarker.length = 6 := by decide
  have := findIdxSub_le krpcMarker (by decide) s i h
  rw [h6] at this
  simp
  omega

def httpPre : Str := ['h', 't', 't', 'p', ':', '/', '/']
def httpsPre : Str := ['h', 't', 't', 'p', 's', ':', '/', '/']

/-- Embeds `normalize_slug_or_url`. -/
def normalize_slug_or_url (v0 : Str) : Str :=
  let v := stripBoth v0
  if httpPre.isPrefixOf v || httpsPre.isPrefixOf v then
    afterMarker (urlPath (normalizeL v))
  else v.dropWhile (· = '/')

def allowedPre : Str := "https://krpc.github.io/krpc/python".toList
def htmlSuffix : Str := ".html".toList
def ROOT_URL : Str := "https://krpc.github.io/krpc/python.html".toList

/-- Embeds `allowed`. -/
def allowed (u : Str) : Bool :=
  let n := normalizeL u
  if !allowedPre.isPrefixOf n then false else htmlSuffix.isSuffixOf n

/-- Embeds `page_to_slug`. -/
def page_to_slug (u : Str) : Str := afterMarker (urlPath u)

/-! ## Data model

`DocPage` mirrors the `DocPage` dataclass; member records mirror the
string-keyed dicts stored in `DocIndex.members`.  Python dicts become
insertion-ordered association lists with Python's assignment semantics
(`dictInsert`): an existing key keeps its position and gets the new
value, a new key is appended. -/

structure DocPage where
  url : Str
  slug : Str
  title : Str
  text : Str
deriving DecidableEq

structure MemberRec where
  id : Str
  title : Str
  url : Str
  signature : Str
  description : Str
deriving DecidableEq

/-- Python dict assignment `m[k] = v`. -/
def dictInsert {α : Type} (m : List (Str × α)) (k : Str) (v : α) : List (Str × α) :=
  match m with
  | [] => [(k, v)]
  | (k0, v0) :: t => if k0 = k then (k0, v) :: t else (k0, v0) :: dictInsert t k v

/-- Python `m.get(k)` / `m[k]`. -/
def lookupDict {α : Type} (m : List (Str × α)) (k : Str) : Option α :=
  match m with
  | [] => none
  | (k0, v0) :: t => if k0 = k then some v0 else lookupDict t k

/-! ## Crawler

The network and BeautifulSoup are abstracted into an environment: `net`
maps a URL to `none` (a `requests.RequestException`) or to the parsed
page — its `<title>` text, the text extracted from the main content
region (pre-truncation), the `dt[id]` elements, and the raw `href`
values of its `a[href]` elements; `joinUrl` is `urllib.parse.urljoin`.
The crawl logic itself — frontier, seen-set, cap, normalization,
filtering, member-dict construction — is embedded faithfully.  Two ghost
accumulators are carried for specification purposes only: `fetched`
records each URL passed to `session.get` (in order), and `writes`
records each assignment `members[mid] = {...}` (in order). -/

structure DtElem where
  idAttr : Str
  dtText : Str
  ddText : Option Str

structure PageSrc where
  titleTag : Option Str
  rawText : Str
  dts : List DtElem
  hrefs : List Str

structure CrawlEnv where
  net : Str → Option PageSrc
  joinUrl : Str → Str → Str

def MAX_PAGES : Nat := 300
def MAX_PAGE_CHARS : Nat := 20000

/-- The member records written while processing one page's `dt[id]`
elements, in processing order (elements with an empty stripped id are
skipped). -/
def pageWrites (url title : Str) (dts : List DtElem) : List (Str × MemberRec) :=
  dts.foldl (fun acc dt =>
    let mid := stripBoth dt.idAttr
    if mid.isEmpty then acc
    else acc ++ [(mid,
      { id := mid, title := title, url := url ++ '#' :: mid,
        signature := collapseWs dt.dtText,
        description := match dt.ddText with
          | some d => (collapseWs d).take 1200
          | none => [] })]) []

/-- Link-discovery step for one page: each nonempty `href` is joined
against the page URL, normalized, filtered by `allowed`, and enqueued if
it is in neither the seen set nor the frontier. -/
def pageLinks (env : CrawlEnv) (url : Str) (hrefs : List Str)
    (seen tv0 : List Str) : List Str :=
  hrefs.foldl (fun tv raw =>
    if raw.isEmpty then tv
    else
      let linked := normalizeL (env.joinUrl url raw)
      if allowed linked && !(decide (linked ∈ seen)) && !(decide (linked ∈ tv))
      then tv ++ [linked] else tv) tv0

structure CrawlResult where
  pages : List DocPage
  members : List (Str × MemberRec)
  seen : List Str
  fetched : List Str
  writes : List (Str × MemberRec)

/-- The `while to_visit and len(seen) < MAX_PAGES` loop of `crawl_docs`. -/
def crawlLoop (env : CrawlEnv) (toVisit seen fetched : List Str)
    (pages : List DocPage) (mems ws : List (Str × MemberRec)) : CrawlResult :=
  match toVisit with
  | [] => ⟨pages, mems, seen, fetched, ws⟩
  | u0 :: rest =>
    if h : seen.length < MAX_PAGES then
      let url := normalizeL u0
      if url ∈ seen then crawlLoop env rest seen fetched pages mems ws
      else
        let seen' := seen ++ [url]
        let fetched' := fetched ++ [url]
        match env.net url with
        | none => crawlLoop env rest seen' fetched' pages mems ws
        | some pg =>
          let slug := page_to_slug url
          let title := match pg.titleTag with
            | some t => if t.isEmpty then slug else stripBoth t
            | none => slug
          let text := pg.rawText.take MAX_PAGE_CHARS
          let pw := pageWrites url title pg.dts
          let mems' := pw.foldl (fun m kv => dictInsert m kv.1 kv.2) mems
          let tv' := pageLinks env url pg.hrefs seen' rest
          crawlLoop env tv' seen' fetched' (pages ++ [⟨url, slug, title, text⟩])
            mems' (ws ++ pw)
    else ⟨pages, mems, seen, fetched, ws⟩
termination_by (MAX_PAGES - seen.length, toVisit.length)
decreasing_by
  · apply Prod.Lex.right; simp
  · apply Prod.Lex.left; simp; omega
  · apply Prod.Lex.left; simp; omega

/-- Embeds `crawl_docs`. -/
def crawl_docs (env : CrawlEnv) : CrawlResult :=
  crawlLoop env [ROOT_URL] [] [] [] [] []

/-! ## Store, staleness, reindex

`indexed_at` timestamps are integer seconds; `timedelta(hours=24)` is
86400 seconds.  `reindex` returns the new store, the status payload, and
the (ghost) list of URLs fetched while serving the call. -/

structure Store where
  pages : List (Str × DocPage)
  members : List (Str × MemberRec)
  indexedAt : Option Int

/-- Embeds `DocIndex.is_stale`. -/
def is_stale (st : Store) (now : Int) : Bool :=
  match st.indexedAt with
  | none => true
  | some t => decide (now - t > 86400)

/-- The `{"status": "ok", ...}` payload returned by `reindex` and
`ensure_fresh` (the `"status"` field is the constant `"ok"` and is
omitted). -/
structure RStatus where
  message : Str
  indexedAt : Option Int
deriving DecidableEq

def indexedMessage (p m : Nat) : Str :=
  "Indexed ".toList ++ (Nat.repr p).toList ++ " pages and ".toList
    ++ (Nat.repr m).toList ++ " API members.".toList

/-- Embeds `DocIndex.reindex`. -/
def reindexSt (st : Store) (force : Bool) (now : Int) (env : CrawlEnv) :
    Store × RStatus × List Str :=
  if !st.pages.isEmpty && !force && !is_stale st now then
    (st, ⟨"Index already fresh.".toList, st.indexedAt⟩, [])
  else
    let r := crawl_docs env
    let pages' := r.pages.foldl (fun d p => dictInsert d p.slug p) []
    (⟨pages', r.members, some now⟩,
     ⟨indexedMessage pages'.length r.members.length, some now⟩, r.fetched)

/-- Embeds `DocIndex.ensure_fresh`. -/
def ensure_freshSt (st : Store) (now : Int) (env : CrawlEnv) :
    Store × RStatus × List Str :=
  if !st.pages.isEmpty && !is_stale st now then
    (st, ⟨"Index is fresh.".toList, st.indexedAt⟩, [])
  else reindexSt st true now env

/-! ## Search -/

structure SearchHit where
  score : Nat
  title : Str
  slug : Str
  url : Str
  snippet : Str
deriving DecidableEq

/-- The scoring pass of `DocIndex.search`: per page, +5 for a
case-insensitive query hit in the title, +4 in the slug, +1 in the body
text; pages with score 0 are not collected. -/
def searchScored (pages : List DocPage) (q : Str) : List (Nat × DocPage) :=
  pages.foldl (fun acc page =>
    let score := (if inStr q (lowerStr page.title) then 5 else 0)
               + (if inStr q (lowerStr page.slug) then 4 else 0)
               + (if inStr q (lowerStr page.text) then 1 else 0)
    if score > 0 then acc ++ [(score, page)] else acc) []

/-- The sort key of `DocIndex.search`: `(-score, slug)` ascending, i.e.
score descending with ties broken by ascending slug. -/
def rankLe (a b : Nat × DocPage) : Bool :=
  b.1 < a.1 || (a.1 = b.1 && strLe a.2.slug b.2.slug)

/-- The per-result snippet of `DocIndex.search`: the window around the
first occurrence of the query in the (lowercased) body text, or the
first 240 characters when the query does not occur; whitespace-collapsed
either way. -/
def hitOf (q : Str) (s : Nat) (page : DocPage) : SearchHit :=
  let idx := findSub q (lowerStr page.text)
  let snippet :=
    if idx < 0 then page.text.take 240
    else
      let i := idx.toNat
      let start := i - 80
      let stop := min page.text.length (i + 160)
      (page.text.drop start).take (stop - start)
  ⟨s, page.title, page.slug, page.url, collapseWs snippet⟩

/-- Embeds `DocIndex.search` (returns the echoed query and the result
list). -/
def searchSt (st : Store) (q : Str) (limit : Int) (now : Int) (env : CrawlEnv) :
    Str × List SearchHit :=
  let st' := (ensure_freshSt st now env).1
  let ql := lowerStr (stripBoth q)
  if ql.isEmpty then (q, [])
  else
    let scored := searchScored (st'.pages.map (·.2)) ql
    let sorted := pySort rankLe scored
    let top := sorted.take (max 1 (min limit 20)).toNat
    (q, top.map (fun sp => hitOf ql sp.1 sp.2))

/-! ## Page lookup -/

inductive PageResult where
  | notFound (message : Str)
  | found (title slug url content : Str) (indexedAt : Option Int)
deriving DecidableEq

/-- Embeds `DocIndex.get_page`. -/
def get_pageSt (st : Store) (v : Str) (now : Int) (env : CrawlEnv) : PageResult :=
  let st' := (ensure_freshSt st now env).1
  let key := normalize_slug_or_url v
  match lookupDict st'.pages key with
  | none => .notFound ("No page found for '".toList ++ v ++ "'.".toList)
  | some page => .found page.title page.slug page.url page.text st'.indexedAt

/-! ## Member resolution -/

/-- The per-id score of `DocIndex.get_member`: 100 for an exact match of
the lowercased composite key, else 80 for a substring match, else 50
when the id contains both the class and the member name, else 20 when it
contains the member name only, else 0. -/
def memberScore (target clsL memL key : Str) : Nat :=
  if target = key then 100
  else if inStr target key then 80
  else if inStr memL key && inStr clsL key then 50
  else if inStr memL key then 20
  else 0

/-- Descending-score sort key of `get_member` (`key=lambda x: -x[0]`). -/
def scoreDescLe (a b : Nat × Str × MemberRec) : Bool := b.1 ≤ a.1

/-- The composite lowercase key `f"{service}.{class_name}.{member}".lower()`. -/
def targetOf (service cls mem : Str) : Str :=
  lowerStr (service ++ '.' :: cls ++ '.' :: mem)

/-- The unsorted `candidates` accumulation loop of `get_member` (`if
score:` keeps only nonzero scores). -/
def memberBase (members : List (Str × MemberRec)) (service cls mem : Str) :
    List (Nat × Str × MemberRec) :=
  members.foldl (fun acc kv =>
    let score := memberScore (targetOf service cls mem)
      (lowerStr cls) (lowerStr mem) (lowerStr kv.1)
    if score ≠ 0 then acc ++ [(score, kv.1, kv.2)] else acc) []

/-- The scored, sorted candidate list of `DocIndex.get_member`. -/
def get_memberCands (members : List (Str × MemberRec)) (service cls mem : Str) :
    List (Nat × Str × MemberRec) :=
  pySort scoreDescLe (memberBase members service cls mem)

inductive MemberResult where
  | notFound (message : Str)
  | found (best : MemberRec) (alternatives : List (Str × Str × Str))
deriving DecidableEq

/-- Embeds `DocIndex.get_member`: the best match is returned in full
(keyed by the winning dict key), the next up to 5 candidates only as
(id, title, url). -/
def get_memberSt (st : Store) (service cls mem : Str) (now : Int)
    (env : CrawlEnv) : MemberResult :=
  let st' := (ensure_freshSt st now env).1
  let cands := get_memberCands st'.members service cls mem
  match cands with
  | [] => .notFound ("No API member matched ".toList ++ service
      ++ '.' :: cls ++ '.' :: mem)
  | best :: rest =>
    .found ⟨best.2.1, best.2.2.title, best.2.2.url, best.2.2.signature,
            best.2.2.description⟩
      ((rest.take 5).map (fun c => (c.2.1, c.2.2.title, c.2.2.url)))

/-! ## Specification-side definitions

`scoreSpec` and `snippetSpec` state, following the specification's
wording, the per-page score and highlight snippet that `search` is
claimed to produce; the theorems below relate them to the embedded
`searchSt`. -/

/-- Claimed score: the sum of independent case-insensitive substring
checks, +5 title, +4 slug, +1 body text, each field at most once. -/
def scoreSpec (q : Str) (pg : DocPage) : Nat :=
  (if inStr q (lowerStr pg.title) then 5 else 0)
    + (if inStr q (lowerStr pg.slug) then 4 else 0)
    + (if inStr q (lowerStr pg.text) then 1 else 0)

/-- Claimed snippet: if the query occurs (case-insensitively) in the body
text, the whitespace-collapsed window from 80 characters before to 160
characters after the start of the first occurrence; otherwise the
whitespace-collapsed first 240 characters. -/
def snippetSpec (q : Str) (pg : DocPage) : Str :=
  let idx := findSub q (lowerStr pg.text)
  if idx < 0 then collapseWs (pg.text.take 240)
  else
    let i := idx.toNat
    let start := i - 80
    let stop := min pg.text.length (i + 160)
    collapseWs ((pg.text.drop start).take (stop - start))

/-- The member dict built from a list of writes in order. -/
def dictOf (ws : List (Str × MemberRec)) : List (Str × MemberRec) :=
  ws.foldl (fun m kv => dictInsert m kv.1 kv.2) []

/-- The value of the last write with key `k`, if any. -/
def lastWrite (ws : List (Str × MemberRec)) (k : Str) : Option MemberRec :=
  ((ws.filter (fun kv => kv.1 = k)).map Prod.snd).getLast?

/-- A test network environment in which every request fails. -/
def nullEnv : CrawlEnv := ⟨fun _ => none, fun _ r => r⟩

/-! ## Generic lemmas about the embedded primitives -/

theorem inStr_nil (s : Str) : inStr [] s = true := by
  induction s with
  | nil => rfl
  | cons c t ih => simp [inStr, ih, startsWithL]

theorem dictInsert_keys_nodup {α : Type} (m : List (Str × α)) (k : Str) (v : α)
    (h : (m.map Prod.fst).Nodup) : ((dictInsert m k v).map Prod.fst).Nodup := by
  induction m with
  | nil => simp [dictInsert]
  | cons kv t ih =>
    obtain ⟨k0, v0⟩ := kv
    simp only [List.map_cons, List.nodup_cons] at h
    by_cases hk : k0 = k
    · simp [dictInsert, hk, List.nodup_cons]
      exact ⟨by simpa [hk] using h.1, h.2⟩
    · simp only [dictInsert, hk, if_false, List.map_cons, List.nodup_cons]
      constructor
      · -- k0 not among keys of dictInsert t k v
        have hmem : ∀ x ∈ (dictInsert t k v).map Prod.fst,
            x ∈ t.map Prod.fst ∨ x = k := by
          intro x hx
          clear ih h
          induction t with
          | nil => simp [dictInsert] at hx; simp [hx]
          | cons kv' t' ih' =>
            obtain ⟨k1, v1⟩ := kv'
            by_cases hk1 : k1 = k
            · simp [dictInsert, hk1] at hx
              rcases hx with h1 | h1 <;> simp [h1, hk1]
            · simp only [dictInsert, hk1, if_false, List.map_cons,
                List.mem_cons] at hx
              rcases hx with h1 | h1
              · simp [h1]
              · rcases ih' h1 with h2 | h2
                · simp [h2]
                · simp [h2]
        intro hc
        rcases hmem k0 hc with h1 | h1
        · exact h.1 h1
        · exact hk h1
      · exact ih h.2

theorem dictInsert_lookup {α : Type} (m : List (Str × α)) (k k' : Str) (v : α) :
    lookupDict (dictInsert m k v) k' = if k' = k then some v else lookupDict m k' := by
  induction m with
  | nil =>
    by_cases h : k' = k <;> simp [dictInsert, lookupDict, h]
    · intro hc; exact h hc.symm
  | cons kv t ih =>
    obtain ⟨k0, v0⟩ := kv
    by_cases hk : k0 = k
    · subst hk
      by_cases h' : k' = k0 <;> simp [dictInsert, lookupDict, h', Eq.comm]
    · by_cases h0 : k0 = k'
      · subst h0
        simp [dictInsert, hk, lookupDict]
      · simp [dictInsert, hk, lookupDict, h0, ih]

theorem dictOf_spec (ws : List (Str × MemberRec)) :
    ((dictOf ws).map Prod.fst).Nodup
      ∧ ∀ k, lookupDict (dictOf ws) k = lastWrite ws k := by
  induction ws using List.reverseRecOn with
  | nil =>
    refine ⟨by simp [dictOf], fun k => ?_⟩
    simp [dictOf, lastWrite, lookupDict]
  | append_singleton ws kv ih =>
    have hfold : dictOf (ws ++ [kv]) = dictInsert (dictOf ws) kv.1 kv.2 := by
      simp [dictOf]
    constructor
    · rw [hfold]; exact dictInsert_keys_nodup _ _ _ ih.1
    · intro k
      rw [hfold, dictInsert_lookup, ih.2 k]
      by_cases h : k = kv.1
      · simp [h, lastWrite]
      · simp only [h, if_false, lastWrite, List.filter_append]
        have : List.filter (fun x => decide (x.1 = k)) [kv] = [] := by
          simp; intro hc; exact h hc.symm
        simp [this]

/-! ## Crawl invariants -/

theorem crawlLoop_inv (env : CrawlEnv) (tv seen fetched : List Str)
    (pages : List DocPage) (mems ws : List (Str × MemberRec)) :
    (fetched = seen → seen.Nodup → seen.length ≤ MAX_PAGES →
      (crawlLoop env tv seen fetched pages mems ws).fetched
        = (crawlLoop env tv seen fetched pages mems ws).seen
      ∧ (crawlLoop env tv seen fetched pages mems ws).seen.Nodup
      ∧ (crawlLoop env tv seen fetched pages mems ws).seen.length ≤ MAX_PAGES)
    ∧ (mems = dictOf ws →
      (crawlLoop env tv seen fetched pages mems ws).members
        = dictOf (crawlLoop env tv seen fetched pages mems ws).writes) := by
  induction tv, seen, fetched, pages, mems, ws using crawlLoop.induct env with
  | case1 seen fetched pages mems ws =>
    rw [crawlLoop]
    exact ⟨fun hf hn hl => ⟨hf, hn, hl⟩, fun hm => hm⟩
  | case2 seen fetched pages mems ws u0 rest h url hseen ih =>
    rw [crawlLoop]
    simp only [dif_pos h, if_pos hseen]
    exact ih
  | case3 seen fetched pages mems ws u0 rest h url hseen seen' fetched' hnet ih =>
    rw [crawlLoop]
    simp only [dif_pos h, if_neg hseen, hnet]
    constructor
    · intro hf hn hl
      exact ih.1 (by simp only [seen', fetched', hf]) (by simp [seen', List.nodup_append, hn, List.disjoint_singleton, hseen])
        (by simp [seen']; omega)
    · exact ih.2
  | case4 seen fetched pages mems ws u0 rest h url hseen seen' fetched' pg hnet
      slug title text pw mems' tv' ih =>
    rw [crawlLoop]
    simp only [dif_pos h, if_neg hseen, hnet]
    constructor
    · intro hf hn hl
      exact ih.1 (by simp only [seen', fetched', hf]) (by simp [seen', List.nodup_append, hn, List.disjoint_singleton, hseen])
        (by simp [seen']; omega)
    · intro hm
      refine ih.2 ?_
      show List.foldl (fun m kv => dictInsert m kv.1 kv.2) mems pw = dictOf (ws ++ pw)
      rw [hm, dictOf, dictOf, List.foldl_append]
  | case5 seen fetched pages mems ws u0 rest h =>
    rw [crawlLoop]
    simp only [dif_neg h]
    exact ⟨fun hf hn hl => ⟨hf, hn, hl⟩, fun hm => hm⟩

/-- C5: for every link graph — the crawl is a total function, so it
terminates on every environment, cyclic graphs included — the crawler
attempts at most `MAX_PAGES` fetches and never fetches the same
normalized URL twice (`fetched` records each URL passed to
`session.get`, in order). -/
theorem crawl_cap_and_no_refetch (env : CrawlEnv) :
    (crawl_docs env).fetched.Nodup
      ∧ (crawl_docs env).fetched.length ≤ MAX_PAGES := by
  have h := (crawlLoop_inv env [ROOT_URL] [] [] [] [] []).1 rfl (by simp)
    (by simp [MAX_PAGES])
  rw [crawl_docs]
  rw [h.1]
  exact ⟨h.2.1, h.2.2⟩

/-- C10: the member map produced by a crawl never contains two records
with the same id: its keys are nodup, and the record stored under an id
is the one written by the last-processed `dt[id]` element carrying that
id (`writes` records every assignment `members[mid] = {...}`, in
order). -/
theorem members_last_write_wins (env : CrawlEnv) :
    (((crawl_docs env).members.map Prod.fst)).Nodup
      ∧ ∀ k, lookupDict (crawl_docs env).members k
          = lastWrite (crawl_docs env).writes k := by
  have h := (crawlLoop_inv env [ROOT_URL] [] [] [] [] []).2 (by simp [dictOf])
  rw [crawl_docs, h]
  exact dictOf_spec _

/-! ## Characterizations of the accumulation loops -/

theorem memberBase_eq (members : List (Str × MemberRec)) (service cls mem : Str) :
    memberBase members service cls mem
      = members.filterMap (fun kv =>
          let score := memberScore (targetOf service cls mem)
            (lowerStr cls) (lowerStr mem) (lowerStr kv.1)
          if score ≠ 0 then some (score, kv.1, kv.2) else none) := by
  rw [memberBase]
  suffices hgen : ∀ (l : List (Str × MemberRec)) (acc : List (Nat × Str × MemberRec)),
      l.foldl (fun acc kv =>
        let score := memberScore (targetOf service cls mem)
          (lowerStr cls) (lowerStr mem) (lowerStr kv.1)
        if score ≠ 0 then acc ++ [(score, kv.1, kv.2)] else acc) acc
      = acc ++ l.filterMap (fun kv =>
          let score := memberScore (targetOf service cls mem)
            (lowerStr cls) (lowerStr mem) (lowerStr kv.1)
          if score ≠ 0 then some (score, kv.1, kv.2) else none) by
    simpa using hgen members []
  intro l
  induction l with
  | nil => intro acc; simp
  | cons kv t ih =>
    intro acc
    by_cases h : memberScore (targetOf service cls mem)
        (lowerStr cls) (lowerStr mem) (lowerStr kv.1) ≠ 0
    · simp only [List.foldl_cons, List.filterMap_cons, h, if_pos, ih]
      simp [h]
    · simp only [List.foldl_cons, List.filterMap_cons, ih]
      simp [h]

theorem searchScored_eq (pages : List DocPage) (q : Str) :
    searchScored pages q
      = pages.filterMap (fun pg =>
          if 0 < scoreSpec q pg then some (scoreSpec q pg, pg) else none) := by
  rw [searchScored]
  suffices hgen : ∀ (l : List DocPage) (acc : List (Nat × DocPage)),
      l.foldl (fun acc page =>
        let score := (if inStr q (lowerStr page.title) then 5 else 0)
                   + (if inStr q (lowerStr page.slug) then 4 else 0)
                   + (if inStr q (lowerStr page.text) then 1 else 0)
        if score > 0 then acc ++ [(score, page)] else acc) acc
      = acc ++ l.filterMap (fun pg =>
          if 0 < scoreSpec q pg then some (scoreSpec q pg, pg) else none) by
    simpa using hgen pages []
  intro l
  induction l with
  | nil => intro acc; simp
  | cons pg t ih =>
    intro acc
    by_cases h : 0 < scoreSpec q pg
    · simp only [List.foldl_cons, List.filterMap_cons]
      rw [show ((if inStr q (lowerStr pg.title) then 5 else 0)
          + (if inStr q (lowerStr pg.slug) then 4 else 0)
          + (if inStr q (lowerStr pg.text) then 1 else 0)) = scoreSpec q pg from rfl]
      simp only [h, if_pos, ih]
      simp [h]
    · simp only [List.foldl_cons, List.filterMap_cons]
      rw [show ((if inStr q (lowerStr pg.title) then 5 else 0)
          + (if inStr q (lowerStr pg.slug) then 4 else 0)
          + (if inStr q (lowerStr pg.text) then 1 else 0)) = scoreSpec q pg from rfl]
      simp only [ih]
      simp [h, Nat.pos_iff_ne_zero]

theorem crawlLoop_fetched_ext (env : CrawlEnv) (tv seen fetched : List Str)
    (pages : List DocPage) (mems ws : List (Str × MemberRec)) :
    ∃ ext, (crawlLoop env tv seen fetched pages mems ws).fetched = fetched ++ ext := by
  induction tv, seen, fetched, pages, mems, ws using crawlLoop.induct env with
  | case1 seen fetched pages mems ws =>
    exact ⟨[], by rw [crawlLoop]; simp⟩
  | case2 seen fetched pages mems ws u0 rest h url hseen ih =>
    rw [crawlLoop]
    simp only [dif_pos h, if_pos hseen]
    exact ih
  | case3 seen fetched pages mems ws u0 rest h url hseen seen' fetched' hnet ih =>
    rw [crawlLoop]
    simp only [dif_pos h, if_neg hseen, hnet]
    obtain ⟨ext, hx⟩ := ih
    exact ⟨url :: ext, hx.trans (by simp [fetched'])⟩
  | case4 seen fetched pages mems ws u0 rest h url hseen seen' fetched' pg hnet
      slug title text pw mems' tv' ih =>
    rw [crawlLoop]
    simp only [dif_pos h, if_neg hseen, hnet]
    obtain ⟨ext, hx⟩ := ih
    exact ⟨url :: ext, hx.trans (by simp [fetched'])⟩
  | case5 seen fetched pages mems ws u0 rest h =>
    exact ⟨[], by rw [crawlLoop]; simp only [dif_neg h]; simp⟩

/-- Every crawl begins by fetching the normalized seed URL. -/
theorem crawl_docs_fetched_head (env : CrawlEnv) :
    ∃ ext, (crawl_docs env).fetched = normalizeL ROOT_URL :: ext := by
  rw [crawl_docs, crawlLoop]
  rw [dif_pos (show ([] : List Str).length < MAX_PAGES by simp [MAX_PAGES])]
  rw [if_neg (List.not_mem_nil (normalizeL ROOT_URL))]
  cases hnet : env.net (normalizeL ROOT_URL) with
  | none =>
    simp only [hnet]
    obtain ⟨ext, hx⟩ := crawlLoop_fetched_ext env [] ([] ++ [normalizeL ROOT_URL])
      ([] ++ [normalizeL ROOT_URL]) [] [] []
    exact ⟨ext, hx.trans (by simp)⟩
  | some pg =>
    simp only [hnet]
    obtain ⟨ext, hx⟩ := crawlLoop_fetched_ext env
      (pageLinks env (normalizeL ROOT_URL) pg.hrefs ([] ++ [normalizeL ROOT_URL]) [])
      ([] ++ [normalizeL ROOT_URL]) ([] ++ [normalizeL ROOT_URL])
      ([] ++ [⟨normalizeL ROOT_URL, page_to_slug (normalizeL ROOT_URL),
        (match pg.titleTag with
          | some t => if List.isEmpty t = true then page_to_slug (normalizeL ROOT_URL) else stripBoth t
          | none => page_to_slug (normalizeL ROOT_URL)),
        List.take MAX_PAGE_CHARS pg.rawText⟩])
      (List.foldl (fun m kv => dictInsert m kv.1 kv.2) []
        (pageWrites (normalizeL ROOT_URL)
          (match pg.titleTag with
            | some t => if List.isEmpty t = true then page_to_slug (normalizeL ROOT_URL) else stripBoth t
            | none => page_to_slug (normalizeL ROOT_URL)) pg.dts))
      ([] ++ (pageWrites (normalizeL ROOT_URL)
          (match pg.titleTag with
            | some t => if List.isEmpty t = true then page_to_slug (normalizeL ROOT_URL) else stripBoth t
            | none => page_to_slug (normalizeL ROOT_URL)) pg.dts))
    exact ⟨ext, hx.trans (by simp)⟩

/-- A store with a fresh timestamp but an empty page map. -/
def emptyFreshStore : Store := ⟨[], [], some 0⟩

/-- C6 counterexample: on a store whose snapshot is fresh (`indexedAt`
set and within the 24-hour window) but whose page map is empty,
`reindex(force=false)` is not a no-op: it performs at least one network
fetch and moves `indexedAt`, because the code's no-op guard also
requires `self.pages` to be non-empty. -/
theorem reindex_fresh_but_empty_recrawls :
    is_stale emptyFreshStore 100 = false
      ∧ (reindexSt emptyFreshStore false 100 nullEnv).2.2 ≠ []
      ∧ (reindexSt emptyFreshStore false 100 nullEnv).1.indexedAt
          ≠ emptyFreshStore.indexedAt := by
  refine ⟨by decide, ?_, ?_⟩
  · rw [reindexSt]
    simp only [emptyFreshStore, List.isEmpty_nil, Bool.not_true, Bool.false_and,
      Bool.false_eq_true, if_false]
    obtain ⟨ext, hx⟩ := crawl_docs_fetched_head nullEnv
    simp [hx]
  · rw [reindexSt]
    simp [emptyFreshStore]

/-- C6 (amended): on a fresh snapshot with a non-empty page map,
`reindex(force=false)` is a no-op — the store (pages, members,
`indexedAt`) is returned unchanged, zero fetches are performed, and the
current "already fresh" status is reported. -/
theorem reindex_fresh_nonempty_noop (st : Store) (now : Int) (env : CrawlEnv)
    (hne : st.pages ≠ []) (hfresh : is_stale st now = false) :
    reindexSt st false now env
      = (st, ⟨"Index already fresh.".toList, st.indexedAt⟩, []) := by
  rw [reindexSt]
  have h1 : st.pages.isEmpty = false := by
    cases hp : st.pages with
    | nil => exact absurd hp hne
    | cons a t => simp
  simp [h1, hfresh]

def wPage : DocPage :=
  ⟨"https://krpc.github.io/krpc/python.html".toList, "python.html".toList,
   "kRPC".toList, "vessel docs".toList⟩

def wMember : MemberRec :=
  ⟨"A.B.C".toList, "T".toList, "U".toList, "S".toList, "D".toList⟩

/-- A concrete fresh, non-empty store used to instantiate theorems. -/
def wStore : Store :=
  ⟨[("python.html".toList, wPage)], [("A.B.C".toList, wMember)], some 0⟩

theorem reindex_fresh_nonempty_noop_witness :
    wStore.pages ≠ [] ∧ is_stale wStore 50 = false
      ∧ reindexSt wStore false 50 nullEnv
          = (wStore, ⟨"Index already fresh.".toList, wStore.indexedAt⟩, []) :=
  ⟨by decide, by decide,
   reindex_fresh_nonempty_noop wStore 50 nullEnv (by decide) (by decide)⟩

/-- C8: a page-lookup or member-lookup miss is returned as a structured
not-found result value (the embedding of the
`{"error": "not_found", "message": ...}` payload) with a human-readable
message naming the failed input; both operations are total functions
into a result type — in the source neither path raises, misses are
communicated only through the returned value. -/
theorem lookup_miss_structured_not_found :
    (∀ (st : Store) (v : Str) (now : Int) (env : CrawlEnv),
      lookupDict ((ensure_freshSt st now env).1).pages (normalize_slug_or_url v) = none →
        get_pageSt st v now env
          = .notFound ("No page found for '".toList ++ v ++ "'.".toList))
    ∧ (∀ (st : Store) (s c m : Str) (now : Int) (env : CrawlEnv),
      get_memberCands ((ensure_freshSt st now env).1).members s c m = [] →
        get_memberSt st s c m now env
          = .notFound ("No API member matched ".toList ++ s ++ '.' :: c ++ '.' :: m)) := by
  constructor
  · intro st v now env h
    rw [get_pageSt]
    simp only [h]
  · intro st s c m now env h
    rw [get_memberSt]
    simp only [h]

theorem lookup_miss_structured_not_found_witness :
    (lookupDict ((ensure_freshSt wStore 0 nullEnv).1).pages
        (normalize_slug_or_url "nope".toList) = none
      ∧ get_pageSt wStore "nope".toList 0 nullEnv
          = .notFound ("No page found for '".toList ++ "nope".toList ++ "'.".toList))
    ∧ (get_memberCands ((ensure_freshSt wStore 0 nullEnv).1).members
        "q".toList "w".toList "e".toList = []
      ∧ get_memberSt wStore "q".toList "w".toList "e".toList 0 nullEnv
          = .notFound ("No API member matched ".toList ++ "q".toList
              ++ '.' :: "w".toList ++ '.' :: "e".toList)) :=
  ⟨⟨by decide, lookup_miss_structured_not_found.1 wStore "nope".toList 0 nullEnv (by decide)⟩,
   ⟨by decide, lookup_miss_structured_not_found.2 wStore "q".toList "w".toList "e".toList
      0 nullEnv (by decide)⟩⟩

/-- With an empty member-name argument, every indexed id scores at least
20: the empty string is a substring of every lowercased id. -/
theorem memberScore_mem_nil_pos (t c k : Str) : 0 < memberScore t c [] k := by
  unfold memberScore
  split_ifs with h1 h2 h3 h4 <;> try omega
  exact absurd (inStr_nil k) h4

/-- C9: when the member map used for scoring is non-empty, `get_member`
called with the empty string as the member argument always returns a
best match (never the structured not-found result): the empty string is
a substring of every lowercased id, so every indexed member scores at
least 20. -/
theorem get_member_empty_member_best_match (st : Store) (service cls : Str)
    (now : Int) (env : CrawlEnv)
    (h : ((ensure_freshSt st now env).1).members ≠ []) :
    ∃ b alts, get_memberSt st service cls [] now env = .found b alts := by
  rw [get_memberSt]
  have hbase : memberBase ((ensure_freshSt st now env).1).members service cls [] ≠ [] := by
    rw [memberBase_eq]
    cases hm : ((ensure_freshSt st now env).1).members with
    | nil => exact absurd hm h
    | cons kv t =>
      have hne0 : memberScore (targetOf service cls []) (lowerStr cls)
          (lowerStr ([] : Str)) (lowerStr kv.1) ≠ 0 := by
        have := memberScore_mem_nil_pos (targetOf service cls [])
          (lowerStr cls) (lowerStr kv.1)
        simp only [lowerStr, List.map_nil] at *
        omega
      simp [List.filterMap_cons, hne0]
  have hcands : get_memberCands ((ensure_freshSt st now env).1).members service cls [] ≠ [] := by
    rw [get_memberCands]
    intro hc
    have hp := pySort_perm scoreDescLe
      (memberBase ((ensure_freshSt st now env).1).members service cls [])
    rw [hc] at hp
    exact hbase hp.symm.eq_nil
  cases hcs : get_memberCands ((ensure_freshSt st now env).1).members service cls [] with
  | nil => exact absurd hcs hcands
  | cons best rest =>
    simp only [hcs]
    exact ⟨_, _, rfl⟩

theorem get_member_empty_member_best_match_witness :
    ((ensure_freshSt wStore 0 nullEnv).1).members ≠ []
      ∧ ∃ b alts, get_memberSt wStore "x".toList "y".toList [] 0 nullEnv
          = .found b alts :=
  ⟨by decide,
   get_member_empty_member_best_match wStore "x".toList "y".toList 0 nullEnv (by decide)⟩

/-! ## Search: ordering and scoring lemmas -/

theorem strLt_trans : ∀ a b c : Str, strLt a b = true → strLt b c = true →
    strLt a c = true := by
  intro a
  induction a with
  | nil =>
    intro b c hab hbc
    cases b with
    | nil => simp [strLt] at hab
    | cons y bs =>
      cases c with
      | nil => simp [strLt] at hbc
      | cons z cs => simp [strLt]
  | cons x as ih =>
    intro b c hab hbc
    cases b with
    | nil => simp [strLt] at hab
    | cons y bs =>
      cases c with
      | nil => simp [strLt] at hbc
      | cons z cs =>
        simp only [strLt, Bool.or_eq_true, Bool.and_eq_true, decide_eq_true_eq] at *
        rcases hab with h1 | ⟨h1, h1'⟩
        · rcases hbc with h2 | ⟨h2, h2'⟩
          · exact Or.inl (lt_trans h1 h2)
          · exact Or.inl (h2 ▸ h1)
        · rcases hbc with h2 | ⟨h2, h2'⟩
          · exact Or.inl (h1 ▸ h2)
          · exact Or.inr ⟨h1.trans h2, ih bs cs h1' h2'⟩

theorem strLt_total : ∀ a b : Str, strLt a b = true ∨ a = b ∨ strLt b a = true := by
  intro a
  induction a with
  | nil =>
    intro b
    cases b with
    | nil => simp [strLt]
    | cons y bs => simp [strLt]
  | cons x as ih =>
    intro b
    cases b with
    | nil => simp [strLt]
    | cons y bs =>
      rcases lt_trichotomy x y with h | h | h
      · exact Or.inl (by simp [strLt, h])
      · subst h
        rcases ih bs with h' | h' | h'
        · exact Or.inl (by simp [strLt, h'])
        · exact Or.inr (Or.inl (by rw [h']))
        · exact Or.inr (Or.inr (by simp [strLt, h']))
      · exact Or.inr (Or.inr (by simp [strLt, h]))

theorem strLe_trans (a b c : Str) (hab : strLe a b = true) (hbc : strLe b c = true) :
    strLe a c = true := by
  simp only [strLe, Bool.or_eq_true, decide_eq_true_eq] at *
  rcases hab with h1 | h1
  · rcases hbc with h2 | h2
    · exact Or.inl (strLt_trans a b c h1 h2)
    · exact Or.inl (h2 ▸ h1)
  · rcases hbc with h2 | h2
    · exact Or.inl (h1 ▸ h2)
    · exact Or.inr (h1.trans h2)

theorem strLe_total (a b : Str) : strLe a b = true ∨ strLe b a = true := by
  simp only [strLe, Bool.or_eq_true, decide_eq_true_eq]
  rcases strLt_total a b with h | h | h
  · exact Or.inl (Or.inl h)
  · exact Or.inl (Or.inr h)
  · exact Or.inr (Or.inl h)

theorem rankLe_trans (a b c : Nat × DocPage) (hab : rankLe a b = true)
    (hbc : rankLe b c = true) : rankLe a c = true := by
  simp only [rankLe, Bool.or_eq_true, Bool.and_eq_true, decide_eq_true_eq] at *
  rcases hab with h1 | ⟨h1, h1'⟩
  · rcases hbc with h2 | ⟨h2, h2'⟩
    · exact Or.inl (by omega)
    · exact Or.inl (by omega)
  · rcases hbc with h2 | ⟨h2, h2'⟩
    · exact Or.inl (by omega)
    · exact Or.inr ⟨by omega, strLe_trans _ _ _ h1' h2'⟩

theorem rankLe_total (a b : Nat × DocPage) : rankLe a b = true ∨ rankLe b a = true := by
  simp only [rankLe, Bool.or_eq_true, Bool.and_eq_true, decide_eq_true_eq]
  rcases Nat.lt_trichotomy a.1 b.1 with h | h | h
  · exact Or.inr (Or.inl h)
  · rcases strLe_total a.2.slug b.2.slug with h' | h'
    · exact Or.inl (Or.inr ⟨h, h'⟩)
    · exact Or.inr (Or.inr ⟨h.symm, h'⟩)
  · exact Or.inl (Or.inl h)

theorem scoreDescLe_trans (a b c : Nat × Str × MemberRec)
    (hab : scoreDescLe a b = true) (hbc : scoreDescLe b c = true) :
    scoreDescLe a c = true := by
  simp only [scoreDescLe, decide_eq_true_eq] at *
  omega

theorem scoreDescLe_total (a b : Nat × Str × MemberRec) :
    scoreDescLe a b = true ∨ scoreDescLe b a = true := by
  simp only [scoreDescLe, decide_eq_true_eq]
  omega

/-- Every search result arises as `hitOf` of a scored page. -/
theorem searchSt_mem (st : Store) (q : Str) (limit : Int) (now : Int)
    (env : CrawlEnv) :
    ∀ e ∈ (searchSt st q limit now env).2,
      ∃ s pg, (s, pg) ∈ searchScored
          (((ensure_freshSt st now env).1).pages.map Prod.snd)
          (lowerStr (stripBoth q))
        ∧ e = hitOf (lowerStr (stripBoth q)) s pg := by
  intro e he
  rw [searchSt] at he
  by_cases hq : (lowerStr (stripBoth q)).isEmpty
  · simp only [hq, if_pos] at he
    exact absurd he (List.not_mem_nil e)
  · simp only [hq, Bool.false_eq_true, if_false, List.mem_map] at he
    obtain ⟨sp, hsp, he⟩ := he
    have hsp' : sp ∈ pySort rankLe (searchScored
        (((ensure_freshSt st now env).1).pages.map Prod.snd)
        (lowerStr (stripBoth q))) :=
      List.mem_of_mem_take hsp
    have := (pySort_perm rankLe _).mem_iff.1 hsp'
    exact ⟨sp.1, sp.2, this, he.symm⟩

theorem hitOf_score (q : Str) (s : Nat) (pg : DocPage) : (hitOf q s pg).score = s := rfl

theorem hitOf_slug (q : Str) (s : Nat) (pg : DocPage) : (hitOf q s pg).slug = pg.slug := rfl

theorem hitOf_title (q : Str) (s : Nat) (pg : DocPage) : (hitOf q s pg).title = pg.title := rfl

theorem hitOf_snippet (q : Str) (s : Nat) (pg : DocPage) :
    (hitOf q s pg).snippet = snippetSpec q pg := by
  rw [hitOf, snippetSpec]
  by_cases h : findSub q (lowerStr pg.text) < 0 <;> simp [h]

/-- C1: for every query and every integer limit, the search result list
is sorted by descending score with ties broken by ascending slug, and
its length is at most `max 1 (min limit 20)` (the limit clamped to
`[1, 20]`). -/
theorem search_results_sorted_and_bounded (st : Store) (q : Str) (limit : Int)
    (now : Int) (env : CrawlEnv) :
    List.Pairwise (fun a b : SearchHit =>
        b.score < a.score ∨ (a.score = b.score ∧ strLe a.slug b.slug = true))
      (searchSt st q limit now env).2
    ∧ (searchSt st q limit now env).2.length ≤ (max 1 (min limit 20)).toNat := by
  constructor
  · rw [searchSt]
    by_cases hq : (lowerStr (stripBoth q)).isEmpty
    · simp [hq]
    · simp only [hq, Bool.false_eq_true, if_false]
      rw [List.pairwise_map]
      have hsorted := pySort_pairwise rankLe rankLe_trans rankLe_total
        (searchScored (((ensure_freshSt st now env).1).pages.map Prod.snd)
          (lowerStr (stripBoth q)))
      have htake := List.Pairwise.sublist
        (List.take_sublist (max 1 (min limit 20)).toNat _) hsorted
      refine htake.imp ?_
      intro a b hab
      rw [hitOf_score, hitOf_score, hitOf_slug, hitOf_slug]
      simp only [rankLe, Bool.or_eq_true, Bool.and_eq_true, decide_eq_true_eq] at hab
      exact hab
  · rw [searchSt]
    by_cases hq : (lowerStr (stripBoth q)).isEmpty
    · simp [hq]
    · simp only [hq, Bool.false_eq_true, if_false, List.length_map, List.length_take]
      exact min_le_left _ _

/-- C2: for a query that is non-empty after trimming, every returned
result carries a score equal to the additive case-insensitive scoring
formula (+5 title, +4 slug, +1 body text, each at most once) of its
page, that score is positive; and a page scoring 0 never enters the
scored candidate list at all. -/
theorem search_score_formula (st : Store) (q : Str) (limit : Int) (now : Int)
    (env : CrawlEnv) (hq : stripBoth q ≠ []) :
    (∀ e ∈ (searchSt st q limit now env).2,
      ∃ pg, pg ∈ ((ensure_freshSt st now env).1).pages.map Prod.snd
        ∧ e.slug = pg.slug ∧ e.title = pg.title
        ∧ e.score = scoreSpec (lowerStr (stripBoth q)) pg
        ∧ 0 < e.score)
    ∧ (∀ pg ∈ ((ensure_freshSt st now env).1).pages.map Prod.snd,
        scoreSpec (lowerStr (stripBoth q)) pg = 0 →
        ∀ s, (s, pg) ∉ searchScored
          (((ensure_freshSt st now env).1).pages.map Prod.snd)
          (lowerStr (stripBoth q))) := by
  constructor
  · intro e he
    obtain ⟨s, pg, hmem, he⟩ := searchSt_mem st q limit now env e he
    rw [searchScored_eq] at hmem
    obtain ⟨x, hx, hgx⟩ := List.mem_filterMap.1 hmem
    by_cases hpos : 0 < scoreSpec (lowerStr (stripBoth q)) x
    · simp only [hpos, if_pos, Option.some_inj, Prod.mk.injEq] at hgx
      obtain ⟨hs, hxpg⟩ := hgx
      subst hxpg
      refine ⟨x, hx, ?_, ?_, ?_, ?_⟩
      · rw [he, hitOf_slug]
      · rw [he, hitOf_title]
      · rw [he, hitOf_score, hs]
      · rw [he, hitOf_score]; omega
    · simp [hpos] at hgx
  · intro pg _ h0 s hmem
    rw [searchScored_eq] at hmem
    obtain ⟨x, hx, hgx⟩ := List.mem_filterMap.1 hmem
    by_cases hpos : 0 < scoreSpec (lowerStr (stripBoth q)) x
    · simp only [hpos, if_pos, Option.some_inj, Prod.mk.injEq] at hgx
      obtain ⟨hs, hxpg⟩ := hgx
      subst hxpg
      omega
    · simp [hpos] at hgx

theorem search_score_formula_witness :
    stripBoth "vessel".toList ≠ []
    ∧ ((∀ e ∈ (searchSt wStore "vessel".toList 5 0 nullEnv).2,
      ∃ pg, pg ∈ ((ensure_freshSt wStore 0 nullEnv).1).pages.map Prod.snd
        ∧ e.slug = pg.slug ∧ e.title = pg.title
        ∧ e.score = scoreSpec (lowerStr (stripBoth "vessel".toList)) pg
        ∧ 0 < e.score)
    ∧ (∀ pg ∈ ((ensure_freshSt wStore 0 nullEnv).1).pages.map Prod.snd,
        scoreSpec (lowerStr (stripBoth "vessel".toList)) pg = 0 →
        ∀ s, (s, pg) ∉ searchScored
          (((ensure_freshSt wStore 0 nullEnv).1).pages.map Prod.snd)
          (lowerStr (stripBoth "vessel".toList)))) :=
  ⟨by decide, search_score_formula wStore "vessel".toList 5 0 nullEnv (by decide)⟩

/-- C4: every search result's snippet is, per the specification, the
whitespace-collapsed window from 80 characters before to 160 characters
after the first (case-insensitive) occurrence of the query in the page's
body text, or the whitespace-collapsed first 240 characters when the
query does not occur there. -/
theorem search_snippet_window (st : Store) (q : Str) (limit : Int) (now : Int)
    (env : CrawlEnv) :
    ∀ e ∈ (searchSt st q limit now env).2,
      ∃ pg, pg ∈ ((ensure_freshSt st now env).1).pages.map Prod.snd
        ∧ e.slug = pg.slug
        ∧ e.snippet = snippetSpec (lowerStr (stripBoth q)) pg := by
  intro e he
  obtain ⟨s, pg, hmem, he⟩ := searchSt_mem st q limit now env e he
  rw [searchScored_eq] at hmem
  obtain ⟨x, hx, hgx⟩ := List.mem_filterMap.1 hmem
  by_cases hpos : 0 < scoreSpec (lowerStr (stripBoth q)) x
  · simp only [hpos, if_pos, Option.some_inj, Prod.mk.injEq] at hgx
    obtain ⟨hs, hxpg⟩ := hgx
    subst hxpg
    exact ⟨x, hx, by rw [he, hitOf_slug], by rw [he, hitOf_snippet]⟩
  · simp [hpos] at hgx

/-- C3: `get_member` scores each indexed id against the lowercase
composite key exactly by `memberScore` (100 exact, 80 substring, 50
class+member, 20 member-only, 0 excluded); the candidate list contains
exactly the positively-scored members, is ordered by descending score
(so an exact match always outranks a substring match, which outranks a
double-partial, which outranks a single-partial); the structured
not-found result is returned exactly when no id scores above 0; and
otherwise the top-scored candidate is returned in full plus up to 5
runner-ups reduced to (id, title, url). -/
theorem get_member_scoring_ranking_shape (st : Store) (s c m : Str)
    (now : Int) (env : CrawlEnv) :
    List.Pairwise (fun a b => scoreDescLe a b = true)
      (get_memberCands ((ensure_freshSt st now env).1).members s c m)
    ∧ (∀ cand ∈ get_memberCands ((ensure_freshSt st now env).1).members s c m,
        (cand.2.1, cand.2.2) ∈ ((ensure_freshSt st now env).1).members
        ∧ cand.1 = memberScore (targetOf s c m) (lowerStr c) (lowerStr m)
            (lowerStr cand.2.1)
        ∧ 0 < cand.1)
    ∧ (∀ kv ∈ ((ensure_freshSt st now env).1).members,
        0 < memberScore (targetOf s c m) (lowerStr c) (lowerStr m) (lowerStr kv.1) →
        (memberScore (targetOf s c m) (lowerStr c) (lowerStr m) (lowerStr kv.1),
          kv.1, kv.2) ∈ get_memberCands ((ensure_freshSt st now env).1).members s c m)
    ∧ (get_memberCands ((ensure_freshSt st now env).1).members s c m = []
        ↔ ∀ kv ∈ ((ensure_freshSt st now env).1).members,
            memberScore (targetOf s c m) (lowerStr c) (lowerStr m) (lowerStr kv.1) = 0)
    ∧ (get_memberSt st s c m now env
        = .notFound ("No API member matched ".toList ++ s ++ '.' :: c ++ '.' :: m)
        ↔ get_memberCands ((ensure_freshSt st now env).1).members s c m = [])
    ∧ (∀ b rest, get_memberCands ((ensure_freshSt st now env).1).members s c m
          = b :: rest →
        get_memberSt st s c m now env
          = .found ⟨b.2.1, b.2.2.title, b.2.2.url, b.2.2.signature, b.2.2.description⟩
              ((rest.take 5).map (fun cand => (cand.2.1, cand.2.2.title, cand.2.2.url)))
        ∧ (∀ cand ∈ get_memberCands ((ensure_freshSt st now env).1).members s c m,
            cand.1 ≤ b.1)
        ∧ (rest.take 5).length ≤ 5) := by
  have hpair : List.Pairwise (fun a b => scoreDescLe a b = true)
      (get_memberCands ((ensure_freshSt st now env).1).members s c m) := by
    rw [get_memberCands]
    exact pySort_pairwise scoreDescLe scoreDescLe_trans scoreDescLe_total _
  have hmemc : ∀ cand, (cand ∈ get_memberCands ((ensure_freshSt st now env).1).members s c m
      ↔ cand ∈ memberBase ((ensure_freshSt st now env).1).members s c m) := by
    intro cand
    rw [get_memberCands]
    exact (pySort_perm scoreDescLe _).mem_iff
  refine ⟨hpair, ?_, ?_, ?_, ?_, ?_⟩
  · intro cand hc
    rw [hmemc, memberBase_eq] at hc
    obtain ⟨kv, hkv, hg⟩ := List.mem_filterMap.1 hc
    by_cases hz : memberScore (targetOf s c m) (lowerStr c) (lowerStr m) (lowerStr kv.1) ≠ 0
    · rw [if_pos hz] at hg
      have := Option.some.inj hg
      subst this
      exact ⟨hkv, rfl, by omega⟩
    · simp [hz] at hg
  · intro kv hkv hpos
    rw [hmemc, memberBase_eq]
    refine List.mem_filterMap.2 ⟨kv, hkv, ?_⟩
    rw [if_pos (show memberScore (targetOf s c m) (lowerStr c) (lowerStr m)
      (lowerStr kv.1) ≠ 0 from by omega)]
  · constructor
    · intro hnil kv hkv
      by_contra hz
      have hpos : 0 < memberScore (targetOf s c m) (lowerStr c) (lowerStr m)
          (lowerStr kv.1) := by omega
      have : (memberScore (targetOf s c m) (lowerStr c) (lowerStr m) (lowerStr kv.1),
          kv.1, kv.2) ∈ get_memberCands ((ensure_freshSt st now env).1).members s c m := by
        rw [hmemc, memberBase_eq]
        refine List.mem_filterMap.2 ⟨kv, hkv, ?_⟩
        rw [if_pos (show memberScore (targetOf s c m) (lowerStr c) (lowerStr m)
          (lowerStr kv.1) ≠ 0 from by omega)]
      rw [hnil] at this
      exact absurd this (List.not_mem_nil _)
    · intro hall
      cases hcs : get_memberCands ((ensure_freshSt st now env).1).members s c m with
      | nil => rfl
      | cons b rest =>
        have hb : b ∈ get_memberCands ((ensure_freshSt st now env).1).members s c m := by
          rw [hcs]; exact List.mem_cons_self b rest
        rw [hmemc, memberBase_eq] at hb
        obtain ⟨kv, hkv, hg⟩ := List.mem_filterMap.1 hb
        by_cases hz : memberScore (targetOf s c m) (lowerStr c) (lowerStr m)
            (lowerStr kv.1) ≠ 0
        · exact absurd (hall kv hkv) hz
        · simp [hz] at hg
  · rw [get_memberSt]
    cases hcs : get_memberCands ((ensure_freshSt st now env).1).members s c m with
    | nil => simp [hcs]
    | cons b rest => simp [hcs]
  · intro b rest hcands
    refine ⟨?_, ?_, ?_⟩
    · rw [get_memberSt]
      simp only [hcands]
    · intro cand hc
      rw [hcands] at hc hpair
      rcases hpair with _ | ⟨hhead, _⟩
      rcases List.mem_cons.1 hc with hc | hc
      · rw [hc]
      · have := hhead cand hc
        simp only [scoreDescLe, decide_eq_true_eq] at this
        exact this
    · have := List.length_take_le 5 rest
      omega

theorem get_member_scoring_ranking_shape_witness :
    get_memberCands ((ensure_freshSt wStore 0 nullEnv).1).members
        "A".toList "B".toList "C".toList = [(100, "A.B.C".toList, wMember)]
    ∧ get_memberSt wStore "A".toList "B".toList "C".toList 0 nullEnv
      = .found ⟨"A.B.C".toList, wMember.title, wMember.url, wMember.signature,
          wMember.description⟩ [] :=
  ⟨by decide,
   ((get_member_scoring_ranking_shape wStore "A".toList "B".toList "C".toList 0
      nullEnv).2.2.2.2.2 (100, "A.B.C".toList, wMember) [] (by decide)).1⟩

/-! ## Params-split structural lemmas (towards C7) -/

/-- `x` split-rejoins to itself: the params round-trip loses nothing. -/
def goodp (x : Str) : Prop := rejoinP (splitParamsP x) = x

theorem afterLastSlash_no_slash : ∀ x : Str, '/' ∉ afterLastSlash x := by
  intro x
  induction x with
  | nil => simp [afterLastSlash]
  | cons c t ih =>
    rw [afterLastSlash]
    by_cases ht : '/' ∈ t
    · simp [ht, ih]
    · by_cases hc : c = '/'
      · simp [ht, hc]
      · simp [ht, hc]
        exact fun h => absurd h.symm hc

theorem afterLastSlash_of_not_mem (x : Str) (h : '/' ∉ x) : afterLastSlash x = x := by
  induction x with
  | nil => rfl
  | cons c t ih =>
    rw [afterLastSlash]
    have hc : ¬c = '/' := fun hc => h (by simp [hc])
    have ht : '/' ∉ t := fun ht => h (by simp [ht])
    simp [ht, hc]

theorem afterLastSlash_append (w z : Str) (h : '/' ∈ z) :
    afterLastSlash (w ++ z) = afterLastSlash z := by
  induction w with
  | nil => rfl
  | cons c w' ih =>
    rw [List.cons_append, afterLastSlash]
    have : '/' ∈ w' ++ z := List.mem_append.2 (Or.inr h)
    simp [this, ih]

theorem afterLastSlash_cons_self (z : Str) : afterLastSlash ('/' :: z) = afterLastSlash z ∨
    ('/' ∉ z ∧ afterLastSlash ('/' :: z) = z) := by
  by_cases h : '/' ∈ z
  · left
    rw [afterLastSlash]
    simp [h]
  · right
    refine ⟨h, ?_⟩
    rw [afterLastSlash]
    simp [h]

theorem afterLastSlash_decomp (x : Str) (h : '/' ∈ x) :
    ∃ A, x = A ++ '/' :: afterLastSlash x := by
  induction x with
  | nil => exact absurd h (List.not_mem_nil '/')
  | cons c t ih =>
    by_cases ht : '/' ∈ t
    · obtain ⟨A, hA⟩ := ih ht
      refine ⟨c :: A, ?_⟩
      rw [afterLastSlash]
      simp only [ht, if_pos]
      rw [List.cons_append, ← hA]
    · have hc : c = '/' := by
        rcases List.mem_cons.1 h with h' | h'
        · exact h'.symm
        · exact absurd h' ht
      refine ⟨[], ?_⟩
      rw [afterLastSlash]
      simp [ht, hc]

theorem mem_afterLastSlash {c : Char} : ∀ x : Str, c ∈ afterLastSlash x → c ∈ x := by
  intro x
  induction x with
  | nil => simp [afterLastSlash]
  | cons d t ih =>
    rw [afterLastSlash]
    by_cases ht : '/' ∈ t
    · simp only [ht, if_pos]
      intro h
      exact List.mem_cons.2 (Or.inr (ih h))
    · by_cases hd : d = '/'
      · simp only [ht, Bool.false_eq_true, if_false, hd, if_pos]
        intro h
        exact List.mem_cons.2 (Or.inr h)
      · simp [ht, hd]

theorem dropWhile_mem_decomp (e : Char) : ∀ x : Str, e ∈ x →
    ∃ t, x.dropWhile (· ≠ e) = e :: t := by
  intro x
  induction x with
  | nil => simp
  | cons c t ih =>
    intro h
    by_cases hc : c = e
    · subst hc
      exact ⟨t, by simp [List.dropWhile_cons]⟩
    · have ht : e ∈ t := by
        rcases List.mem_cons.1 h with h' | h'
        · exact absurd h'.symm hc
        · exact h'
      obtain ⟨u, hu⟩ := ih ht
      refine ⟨u, ?_⟩
      rw [List.dropWhile_cons, if_pos (by simp [hc])]
      exact hu

theorem semi_decomp (e : Char) (x : Str) (h : e ∈ x) :
    x = x.takeWhile (· ≠ e) ++ e :: (x.dropWhile (· ≠ e)).tail := by
  obtain ⟨t, ht⟩ := dropWhile_mem_decomp e x h
  conv_lhs => rw [← List.takeWhile_append_dropWhile (p := (· ≠ e)) (l := x)]
  rw [ht]
  simp

theorem takeWhile_eq_self {p : Char → Bool} : ∀ x : Str, (∀ c ∈ x, p c = true) →
    x.takeWhile p = x := by
  intro x
  induction x with
  | nil => simp
  | cons c t ih =>
    intro h
    rw [List.takeWhile_cons, if_pos (h c (List.mem_cons_self c t))]
    rw [ih (fun d hd => h d (List.mem_cons.2 (Or.inr hd)))]

theorem splitParamsP_no_semi (x : Str) (h : ';' ∉ x) : splitParamsP x = (x, []) := by
  rw [splitParamsP]
  simp [h]

theorem splitParamsP_no_slash (x : Str) (hs : ';' ∈ x) (h : '/' ∉ x) :
    splitParamsP x = (x.takeWhile (· ≠ ';'), (x.dropWhile (· ≠ ';')).tail) := by
  rw [splitParamsP]
  simp [hs, h]

theorem splitParamsP_slash_no_semi_after (x : Str) (hsl : '/' ∈ x) (hs : ';' ∈ x)
    (h : ';' ∉ afterLastSlash x) : splitParamsP x = (x, []) := by
  rw [splitParamsP]
  simp [hsl, hs, h]

theorem splitParamsP_slash_semi (x : Str) (hsl : '/' ∈ x)
    (hb : ';' ∈ afterLastSlash x) :
    splitParamsP x = (x.take (x.length - (afterLastSlash x).length)
        ++ (afterLastSlash x).takeWhile (· ≠ ';'),
      ((afterLastSlash x).dropWhile (· ≠ ';')).tail) := by
  have hs : ';' ∈ x := mem_afterLastSlash x hb
  rw [splitParamsP]
  simp [hsl, hs, hb]

theorem take_decomp (A B : Str) :
    (A ++ '/' :: B).take ((A ++ '/' :: B).length - B.length) = A ++ ['/'] := by
  have hlen : (A ++ '/' :: B).length - B.length = A.length + 1 := by
    simp; omega
  rw [hlen, List.take_append_eq_append_take]
  have h1 : (A.take (A.length + 1)) = A := List.take_of_length_le (by omega)
  rw [h1]
  simp

theorem isEmpty_false_of_ne {α : Type} (l : List α) (h : l ≠ []) :
    l.isEmpty = false := by
  cases l with
  | nil => exact absurd rfl h
  | cons a t => rfl

theorem rejoinP_nil (a : Str) : rejoinP (a, []) = a := by
  rw [rejoinP]
  simp

theorem rejoinP_ne (a b : Str) (h : b ≠ []) : rejoinP (a, b) = a ++ ';' :: b := by
  rw [rejoinP]
  simp [isEmpty_false_of_ne b h]

theorem afterLastSlash_concat (A B : Str) (hB : '/' ∉ B) :
    afterLastSlash (A ++ '/' :: B) = B := by
  rw [afterLastSlash_append A ('/' :: B) (List.mem_cons_self _ _)]
  rw [afterLastSlash]
  simp [hB]

theorem mem_of_mem_takeWhile {p : Char → Bool} {c : Char} :
    ∀ {l : Str}, c ∈ l.takeWhile p → c ∈ l := by
  intro l
  induction l with
  | nil => simp
  | cons d t ih =>
    rw [List.takeWhile_cons]
    by_cases hd : p d
    · rw [if_pos hd]
      intro h
      rcases List.mem_cons.1 h with h | h
      · exact List.mem_cons.2 (Or.inl h)
      · exact List.mem_cons.2 (Or.inr (ih h))
    · simp [hd]

theorem take_before_last (x : Str) (A : Str)
    (hA : x = A ++ '/' :: afterLastSlash x) :
    x.take (x.length - (afterLastSlash x).length) = A ++ ['/'] := by
  set B := afterLastSlash x with hB
  rw [hA]
  exact take_decomp A B

theorem rejoin_split_whole (x : Str) (hsl : '/' ∈ x)
    (hb : ';' ∈ afterLastSlash x)
    (ht : ((afterLastSlash x).dropWhile (· ≠ ';')).tail ≠ []) :
    rejoinP (splitParamsP x) = x := by
  rw [splitParamsP_slash_semi x hsl hb, rejoinP_ne _ _ ht]
  obtain ⟨A, hA⟩ := afterLastSlash_decomp x hsl
  rw [take_before_last x A hA]
  conv_rhs => rw [hA]
  conv_rhs => rw [semi_decomp ';' (afterLastSlash x) hb]
  simp

theorem good_tail_ne (x : Str) (hg : goodp x) (hsl : '/' ∈ x)
    (hb : ';' ∈ afterLastSlash x) :
    ((afterLastSlash x).dropWhile (· ≠ ';')).tail ≠ [] := by
  intro ht
  rw [goodp, splitParamsP_slash_semi x hsl hb, ht, rejoinP_nil] at hg
  obtain ⟨A, hA⟩ := afterLastSlash_decomp x hsl
  rw [take_before_last x A hA] at hg
  conv_rhs at hg => rw [hA]
  have hcancel : (afterLastSlash x).takeWhile (· ≠ ';') = afterLastSlash x := by
    have : (A ++ ['/']) ++ (afterLastSlash x).takeWhile (· ≠ ';')
        = (A ++ ['/']) ++ afterLastSlash x := by
      rw [hg]; simp
    exact List.append_cancel_left this
  have := List.mem_takeWhile_imp (hcancel ▸ hb)
  simp at this

theorem goodp_rejoin_split (x : Str) : goodp (rejoinP (splitParamsP x)) := by
  by_cases hs : ';' ∈ x
  · by_cases hsl : '/' ∈ x
    · by_cases hb : ';' ∈ afterLastSlash x
      · by_cases ht : ((afterLastSlash x).dropWhile (· ≠ ';')).tail = []
        · rw [splitParamsP_slash_semi x hsl hb, ht, rejoinP_nil]
          obtain ⟨A, hA⟩ := afterLastSlash_decomp x hsl
          rw [take_before_last x A hA]
          set tw := (afterLastSlash x).takeWhile (· ≠ ';') with htw
          have hno : '/' ∉ tw := fun hm =>
            afterLastSlash_no_slash x (mem_of_mem_takeWhile (htw ▸ hm))
          have hsemi_tw : ';' ∉ tw := by
            intro hm
            have := List.mem_takeWhile_imp (htw ▸ hm)
            simp at this
          have ha' : (A ++ ['/']) ++ tw = A ++ '/' :: tw := by simp
          rw [ha']
          have hAfter : afterLastSlash (A ++ '/' :: tw) = tw :=
            afterLastSlash_concat A tw hno
          by_cases hsem : ';' ∈ A ++ '/' :: tw
          · rw [goodp, splitParamsP_slash_no_semi_after (A ++ '/' :: tw)
              (List.mem_append.2 (Or.inr (List.mem_cons_self _ _))) hsem
              (by rw [hAfter]; exact hsemi_tw), rejoinP_nil]
          · rw [goodp, splitParamsP_no_semi _ hsem, rejoinP_nil]
        · rw [rejoin_split_whole x hsl hb ht]
          rw [goodp, rejoin_split_whole x hsl hb ht]
      · rw [splitParamsP_slash_no_semi_after x hsl hs hb, rejoinP_nil]
        rw [goodp, splitParamsP_slash_no_semi_after x hsl hs hb, rejoinP_nil]
    · by_cases ht : ((x.dropWhile (· ≠ ';')).tail) = []
      · rw [splitParamsP_no_slash x hs hsl, ht, rejoinP_nil]
        have hnosemi : ';' ∉ x.takeWhile (· ≠ ';') := by
          intro hmem
          have := List.mem_takeWhile_imp hmem
          simp at this
        rw [goodp, splitParamsP_no_semi _ hnosemi, rejoinP_nil]
      · rw [splitParamsP_no_slash x hs hsl, rejoinP_ne _ _ ht]
        rw [← semi_decomp ';' x hs]
        rw [goodp, splitParamsP_no_slash x hs hsl, rejoinP_ne _ _ ht]
        rw [← semi_decomp ';' x hs]
  · rw [splitParamsP_no_semi x hs, rejoinP_nil]
    rw [goodp, splitParamsP_no_semi x hs, rejoinP_nil]

theorem goodp_nil : goodp [] := by
  rw [goodp, splitParamsP_no_semi [] (by simp), rejoinP_nil]

theorem goodp_suffix (y w z : Str) (hy : goodp y) (hyz : y = w ++ z)
    (hz : z = [] ∨ ∃ z', z = '/' :: z') : goodp z := by
  rcases hz with rfl | ⟨z', rfl⟩
  · exact goodp_nil
  · by_cases hs : ';' ∈ '/' :: z'
    · have hsl : '/' ∈ '/' :: z' := List.mem_cons_self _ _
      have haz : afterLastSlash y = afterLastSlash ('/' :: z') := by
        rw [hyz]
        exact afterLastSlash_append w _ hsl
      by_cases hb : ';' ∈ afterLastSlash ('/' :: z')
      · have hsly : '/' ∈ y := by
          rw [hyz]; exact List.mem_append.2 (Or.inr hsl)
        have hby : ';' ∈ afterLastSlash y := by rw [haz]; exact hb
        have ht := good_tail_ne y hy hsly hby
        rw [haz] at ht
        rw [goodp]
        exact rejoin_split_whole _ hsl hb ht
      · rw [goodp, splitParamsP_slash_no_semi_after _ hsl hs hb, rejoinP_nil]
    · rw [goodp, splitParamsP_no_semi _ hs, rejoinP_nil]

theorem goodp_cons_slash (z : Str) (h : goodp z) : goodp ('/' :: z) := by
  by_cases hs : ';' ∈ z
  · have hs' : ';' ∈ '/' :: z := List.mem_cons.2 (Or.inr hs)
    have hsl' : '/' ∈ '/' :: z := List.mem_cons_self _ _
    by_cases hslz : '/' ∈ z
    · have haz : afterLastSlash ('/' :: z) = afterLastSlash z := by
        rw [afterLastSlash]; simp [hslz]
      by_cases hb : ';' ∈ afterLastSlash z
      · have ht := good_tail_ne z h hslz hb
        rw [goodp]
        exact rejoin_split_whole _ hsl' (by rw [haz]; exact hb)
          (by rw [haz]; exact ht)
      · rw [goodp, splitParamsP_slash_no_semi_after _ hsl' hs'
          (by rw [haz]; exact hb), rejoinP_nil]
    · have haz : afterLastSlash ('/' :: z) = z := by
        rw [afterLastSlash]; simp [hslz]
      have ht : (z.dropWhile (· ≠ ';')).tail ≠ [] := by
        intro ht0
        rw [goodp, splitParamsP_no_slash z hs hslz, ht0, rejoinP_nil] at h
        have hs2 : ';' ∈ z.takeWhile (· ≠ ';') := by rw [h]; exact hs
        have := List.mem_takeWhile_imp hs2
        simp at this
      rw [goodp]
      exact rejoin_split_whole _ hsl' (by rw [haz]; exact hs)
        (by rw [haz]; exact ht)
  · have hs' : ';' ∉ '/' :: z := by
      intro hm
      rcases List.mem_cons.1 hm with hm | hm
      · exact absurd hm.symm (by decide)
      · exact hs hm
    rw [goodp, splitParamsP_no_semi _ hs', rejoinP_nil]

/-! ## Character-set facts about `normalizeL` output -/

/-- The characters that survive into a normalized URL are never a query
marker, fragment marker, or a stripped control character. -/
def okC (c : Char) : Prop :=
  c ≠ '?' ∧ c ≠ '#' ∧ c ≠ '\t' ∧ c ≠ '\x0d' ∧ c ≠ '\n'

theorem lowerChar_toNat (c : Char) (h : 'A' ≤ c ∧ c ≤ 'Z') :
    (lowerChar c).toNat = c.toNat + 32 := by
  have h1 : 65 ≤ c.toNat := by
    have := h.1
    simp [Char.le_def] at this
    exact this
  have h2 : c.toNat ≤ 90 := by
    have := h.2
    simp [Char.le_def] at this
    exact this
  rw [lowerChar, if_pos h]
  have hvalid : Nat.isValidChar (c.toNat + 32) := Or.inl (by omega)
  unfold Char.ofNat
  rw [dif_pos hvalid]
  rfl

theorem okC_lowerChar (c : Char) (h : okC c) : okC (lowerChar c) := by
  by_cases hc : 'A' ≤ c ∧ c ≤ 'Z'
  · have htn := lowerChar_toNat c hc
    have h1 : 65 ≤ c.toNat := by
      have := hc.1
      simp [Char.le_def] at this
      exact this
    have h2 : c.toNat ≤ 90 := by
      have := hc.2
      simp [Char.le_def] at this
      exact this
    have hbig : 97 ≤ (lowerChar c).toNat ∧ (lowerChar c).toNat ≤ 122 := by
      rw [htn]; omega
    refine ⟨?_, ?_, ?_, ?_, ?_⟩ <;>
      · intro he
        rw [he] at hbig
        exact absurd hbig (by decide)
  · rw [lowerChar, if_neg hc]
    exact h

theorem okC_of_mem_map_lower (l : Str) (hl : ∀ c ∈ l, okC c) :
    ∀ c ∈ l.map lowerChar, okC c := by
  intro c hc
  obtain ⟨d, hd, rfl⟩ := List.mem_map.1 hc
  exact okC_lowerChar d (hl d hd)

theorem mem_splitScheme_snd {c : Char} (s : Str) (h : c ∈ (splitScheme s).2) :
    c ∈ s := by
  simp only [splitScheme] at h
  split at h
  · exact List.mem_of_mem_drop h
  · exact h

theorem splitScheme_fst_okC (s : Str) : ∀ c ∈ (splitScheme s).1, okC c := by
  intro c hc
  simp only [splitScheme] at hc
  split at hc
  case isTrue h =>
    have hall : (s.takeWhile (· ≠ ':')).all schemeChar = true := by
      simp only [Bool.and_eq_true] at h
      exact h.2
    obtain ⟨d, hd, rfl⟩ := List.mem_map.1 hc
    have hsd : schemeChar d = true := by
      rw [List.all_eq_true] at hall
      exact hall d hd
    have hok : okC d := by
      refine ⟨?_, ?_, ?_, ?_, ?_⟩ <;>
        · intro he
          rw [he] at hsd
          exact absurd hsd (by decide)
    exact okC_lowerChar d hok
  case isFalse h => exact absurd hc (List.not_mem_nil c)

theorem mem_splitNetloc_fst {c : Char} (s : Str) (h : c ∈ (splitNetloc s).1) :
    c ∈ s ∧ netChar c = true := by
  rw [splitNetloc] at h
  split at h
  · exact ⟨List.mem_of_mem_drop (mem_of_mem_takeWhile h),
      List.mem_takeWhile_imp h⟩
  · exact absurd h (List.not_mem_nil c)

theorem mem_splitNetloc_snd {c : Char} (s : Str) (h : c ∈ (splitNetloc s).2) :
    c ∈ s := by
  rw [splitNetloc] at h
  split at h
  · exact List.mem_of_mem_drop ((List.dropWhile_sublist netChar).mem h)
  · exact h

theorem mem_splitParamsP_fst {c : Char} (x : Str) (h : c ∈ (splitParamsP x).1) :
    c ∈ x := by
  by_cases hs : ';' ∈ x
  · by_cases hsl : '/' ∈ x
    · by_cases hb : ';' ∈ afterLastSlash x
      · rw [splitParamsP_slash_semi x hsl hb] at h
        rcases List.mem_append.1 h with h' | h'
        · exact List.mem_of_mem_take h'
        · exact mem_afterLastSlash x (mem_of_mem_takeWhile h')
      · rw [splitParamsP_slash_no_semi_after x hsl hs hb] at h
        exact h
    · rw [splitParamsP_no_slash x hs hsl] at h
      exact mem_of_mem_takeWhile h
  · rw [splitParamsP_no_semi x hs] at h
    exact h

theorem mem_splitParamsP_snd {c : Char} (x : Str) (h : c ∈ (splitParamsP x).2) :
    c ∈ x := by
  by_cases hs : ';' ∈ x
  · by_cases hsl : '/' ∈ x
    · by_cases hb : ';' ∈ afterLastSlash x
      · rw [splitParamsP_slash_semi x hsl hb] at h
        exact mem_afterLastSlash x
          ((List.dropWhile_sublist _).mem ((List.tail_sublist _).mem h))
      · rw [splitParamsP_slash_no_semi_after x hsl hs hb] at h
        exact absurd h (List.not_mem_nil c)
    · rw [splitParamsP_no_slash x hs hsl] at h
      exact (List.dropWhile_sublist _).mem ((List.tail_sublist _).mem h)
  · rw [splitParamsP_no_semi x hs] at h
    exact absurd h (List.not_mem_nil c)

theorem mem_rejoinP {c : Char} (p pr : Str) (h : c ∈ rejoinP (p, pr)) :
    c ∈ p ∨ c ∈ pr ∨ c = ';' := by
  rw [rejoinP] at h
  split at h
  · exact Or.inl h
  · rcases List.mem_append.1 h with h' | h'
    · exact Or.inl h'
    · rcases List.mem_cons.1 h' with h' | h'
      · exact Or.inr (Or.inr h')
      · exact Or.inr (Or.inl h')

theorem mem_unparseL {c : Char} (sc nl p pr : Str) (h : c ∈ unparseL sc nl p pr) :
    c ∈ sc ∨ c ∈ nl ∨ c ∈ p ∨ c ∈ pr ∨ c = '/' ∨ c = ':' ∨ c = ';' := by
  rw [unparseL] at h
  have hu1 : ∀ d : Char, d ∈ rejoinP (p, pr) → d ∈ p ∨ d ∈ pr ∨ d = ';' :=
    fun d hd => mem_rejoinP p pr hd
  have hw : ∀ d : Char,
      d ∈ (if !(rejoinP (p, pr)).isEmpty && (rejoinP (p, pr)).take 1 ≠ ['/']
          then '/' :: rejoinP (p, pr) else rejoinP (p, pr)) →
      d ∈ p ∨ d ∈ pr ∨ d = ';' ∨ d = '/' := by
    intro d hd
    split at hd
    · rcases List.mem_cons.1 hd with hd | hd
      · exact Or.inr (Or.inr (Or.inr hd))
      · rcases hu1 d hd with h' | h' | h'
        · exact Or.inl h'
        · exact Or.inr (Or.inl h')
        · exact Or.inr (Or.inr (Or.inl h'))
    · rcases hu1 d hd with h' | h' | h'
      · exact Or.inl h'
      · exact Or.inr (Or.inl h')
      · exact Or.inr (Or.inr (Or.inl h'))
  have hu2 : ∀ d : Char,
      d ∈ (if !nl.isEmpty || (!sc.isEmpty && sc ∈ usesNetloc
            && (rejoinP (p, pr)).take 2 ≠ ['/', '/'])
          then '/' :: '/' :: (nl ++ (if !(rejoinP (p, pr)).isEmpty
              && (rejoinP (p, pr)).take 1 ≠ ['/']
            then '/' :: rejoinP (p, pr) else rejoinP (p, pr)))
          else rejoinP (p, pr)) →
      d ∈ nl ∨ d ∈ p ∨ d ∈ pr ∨ d = ';' ∨ d = '/' := by
    intro d hd
    split at hd
    · rcases List.mem_cons.1 hd with hd | hd
      · exact Or.inr (Or.inr (Or.inr (Or.inr hd)))
      rcases List.mem_cons.1 hd with hd | hd
      · exact Or.inr (Or.inr (Or.inr (Or.inr hd)))
      rcases List.mem_append.1 hd with hd | hd
      · exact Or.inl hd
      · rcases hw d hd with h' | h' | h' | h'
        · exact Or.inr (Or.inl h')
        · exact Or.inr (Or.inr (Or.inl h'))
        · exact Or.inr (Or.inr (Or.inr (Or.inl h')))
        · exact Or.inr (Or.inr (Or.inr (Or.inr h')))
    · rcases hu1 d hd with h' | h' | h'
      · exact Or.inr (Or.inl h')
      · exact Or.inr (Or.inr (Or.inl h'))
      · exact Or.inr (Or.inr (Or.inr (Or.inl h')))
  split at h
  · rcases hu2 c h with h' | h' | h' | h' | h'
    · exact Or.inr (Or.inl h')
    · exact Or.inr (Or.inr (Or.inl h'))
    · exact Or.inr (Or.inr (Or.inr (Or.inl h')))
    · exact Or.inr (Or.inr (Or.inr (Or.inr (Or.inr (Or.inr h')))))
    · exact Or.inr (Or.inr (Or.inr (Or.inr (Or.inl h'))))
  · rcases List.mem_append.1 h with h' | h'
    · exact Or.inl h'
    rcases List.mem_cons.1 h' with h' | h'
    · exact Or.inr (Or.inr (Or.inr (Or.inr (Or.inr (Or.inl h')))))
    · rcases hu2 c h' with h' | h' | h' | h' | h'
      · exact Or.inr (Or.inl h')
      · exact Or.inr (Or.inr (Or.inl h'))
      · exact Or.inr (Or.inr (Or.inr (Or.inl h')))
      · exact Or.inr (Or.inr (Or.inr (Or.inr (Or.inr (Or.inr h')))))
      · exact Or.inr (Or.inr (Or.inr (Or.inr (Or.inl h'))))

theorem normalizeL_eq (u : Str) :
    normalizeL u
      = unparseL (splitScheme (stripUnsafe (u.dropWhile c0OrSpace))).1
          (splitNetloc (splitScheme (stripUnsafe (u.dropWhile c0OrSpace))).2).1
          (splitParamsP ((((splitNetloc (splitScheme
              (stripUnsafe (u.dropWhile c0OrSpace))).2).2).takeWhile
                (· ≠ '#')).takeWhile (· ≠ '?'))).1
          (splitParamsP ((((splitNetloc (splitScheme
              (stripUnsafe (u.dropWhile c0OrSpace))).2).2).takeWhile
                (· ≠ '#')).takeWhile (· ≠ '?'))).2 := rfl

/-- Every character of a normalized URL is benign: never `?`, `#`, tab,
CR or LF. -/
theorem normalizeL_okC (u : Str) : ∀ c ∈ normalizeL u, okC c := by
  intro c hc
  rw [normalizeL_eq] at hc
  set s := stripUnsafe (u.dropWhile c0OrSpace) with hsdef
  have hS : ∀ d : Char, d ∈ s → d ≠ '\t' ∧ d ≠ '\x0d' ∧ d ≠ '\n' := by
    intro d hd
    rw [hsdef, stripUnsafe] at hd
    have := (List.mem_filter.1 hd).2
    simp at this
    exact ⟨this.1.1, this.1.2, this.2⟩
  rcases mem_unparseL _ _ _ _ hc with h | h | h | h | h | h | h
  · exact splitScheme_fst_okC s c h
  · obtain ⟨hmem, hnet⟩ := mem_splitNetloc_fst _ h
    have hs := hS c (mem_splitScheme_snd s hmem)
    refine ⟨?_, ?_, hs.1, hs.2.1, hs.2.2⟩ <;>
      · intro he
        rw [he] at hnet
        exact absurd hnet (by decide)
  · have hp := mem_splitParamsP_fst _ h
    have hnq : c ≠ '?' := by
      intro he
      have := List.mem_takeWhile_imp hp
      rw [he] at this
      simp at this
    have hp2 := mem_of_mem_takeWhile hp
    have hnh : c ≠ '#' := by
      intro he
      have := List.mem_takeWhile_imp hp2
      rw [he] at this
      simp at this
    have hs := hS c (mem_splitScheme_snd s
      (mem_splitNetloc_snd _ (mem_of_mem_takeWhile hp2)))
    exact ⟨hnq, hnh, hs.1, hs.2.1, hs.2.2⟩
  · have hp := mem_splitParamsP_snd _ h
    have hnq : c ≠ '?' := by
      intro he
      have := List.mem_takeWhile_imp hp
      rw [he] at this
      simp at this
    have hp2 := mem_of_mem_takeWhile hp
    have hnh : c ≠ '#' := by
      intro he
      have := List.mem_takeWhile_imp hp2
      rw [he] at this
      simp at this
    have hs := hS c (mem_splitScheme_snd s
      (mem_splitNetloc_snd _ (mem_of_mem_takeWhile hp2)))
    exact ⟨hnq, hnh, hs.1, hs.2.1, hs.2.2⟩
  · rw [h]; exact ⟨by decide, by decide, by decide, by decide, by decide⟩
  · rw [h]; exact ⟨by decide, by decide, by decide, by decide, by decide⟩
  · rw [h]; exact ⟨by decide, by decide, by decide, by decide, by decide⟩

theorem rejoin_split_pre (x : Str) : ∃ t, x = rejoinP (splitParamsP x) ++ t := by
  by_cases hs : ';' ∈ x
  · by_cases hsl : '/' ∈ x
    · by_cases hb : ';' ∈ afterLastSlash x
      · by_cases ht : ((afterLastSlash x).dropWhile (· ≠ ';')).tail = []
        · rw [splitParamsP_slash_semi x hsl hb, ht, rejoinP_nil]
          obtain ⟨A, hA⟩ := afterLastSlash_decomp x hsl
          rw [take_before_last x A hA]
          refine ⟨';' :: ((afterLastSlash x).dropWhile (· ≠ ';')).tail, ?_⟩
          conv_lhs => rw [hA]
          conv_lhs => rw [semi_decomp ';' (afterLastSlash x) hb]
          simp
        · rw [rejoin_split_whole x hsl hb ht]
          exact ⟨[], by simp⟩
      · rw [splitParamsP_slash_no_semi_after x hsl hs hb, rejoinP_nil]
        exact ⟨[], by simp⟩
    · by_cases ht : (x.dropWhile (· ≠ ';')).tail = []
      · rw [splitParamsP_no_slash x hs hsl, ht, rejoinP_nil]
        refine ⟨';' :: (x.dropWhile (· ≠ ';')).tail, ?_⟩
        conv_lhs => rw [semi_decomp ';' x hs]
      · rw [splitParamsP_no_slash x hs hsl, rejoinP_ne _ _ ht]
        refine ⟨[], ?_⟩
        conv_lhs => rw [semi_decomp ';' x hs]
        simp
  · rw [splitParamsP_no_semi x hs, rejoinP_nil]
    exact ⟨[], by simp⟩

theorem splitScheme_nil_snd (s : Str) (h : (splitScheme s).1 = []) :
    (splitScheme s).2 = s := by
  simp only [splitScheme] at h ⊢
  split
  case isTrue hc =>
    rw [if_pos hc] at h
    simp only at h
    rw [List.map_eq_nil] at h
    simp only [Bool.and_eq_true] at hc
    obtain ⟨⟨⟨_, hne⟩, _⟩, _⟩ := hc
    rw [h] at hne
    simp at hne
  case isFalse hc => rfl

theorem splitScheme_https (z : Str) :
    splitScheme ("https:".toList ++ z) = ("https".toList, z) := by
  have hs : "https:".toList ++ z = 'h' :: 't' :: 't' :: 'p' :: 's' :: ':' :: z := rfl
  rw [hs]
  have hpre : ('h' :: 't' :: 't' :: 'p' :: 's' :: ':' :: z).takeWhile (· ≠ ':')
      = ['h', 't', 't', 'p', 's'] := by
    simp [List.takeWhile_cons]
  simp only [splitScheme, hpre]
  rw [if_pos]
  · rw [Prod.mk.injEq]
    refine ⟨by decide, ?_⟩
    simp
  · simp
    decide

theorem splitScheme_fst_no_colon (s : Str) : ∀ c ∈ (splitScheme s).1, c ≠ ':' := by
  intro c hc
  simp only [splitScheme] at hc
  split at hc
  case isTrue h =>
    have hall : (s.takeWhile (· ≠ ':')).all schemeChar = true := by
      simp only [Bool.and_eq_true] at h
      exact h.2
    obtain ⟨d, hd, rfl⟩ := List.mem_map.1 hc
    have hsd : schemeChar d = true := by
      rw [List.all_eq_true] at hall
      exact hall d hd
    intro he
    by_cases hup : 'A' ≤ d ∧ d ≤ 'Z'
    · have h1 : 65 ≤ d.toNat := by
        have := hup.1
        simp [Char.le_def] at this
        exact this
      have hbig : 97 ≤ (lowerChar d).toNat := by
        rw [lowerChar_toNat d hup]
        omega
      rw [he] at hbig
      exact absurd hbig (by decide)
    · rw [lowerChar, if_neg hup] at he
      rw [he] at hsd
      exact absurd hsd (by decide)
  case isFalse h => exact absurd hc (List.not_mem_nil c)

theorem colon_cancel : ∀ (a b x y : Str), a ++ ':' :: x = b ++ ':' :: y →
    ':' ∉ a → ':' ∉ b → a = b ∧ x = y := by
  intro a
  induction a with
  | nil =>
    intro b x y h ha hb
    cases b with
    | nil => simp at h; exact ⟨rfl, h⟩
    | cons d bs =>
      simp at h
      exact absurd (by simp [← h.1]) hb
  | cons d as ih =>
    intro b x y h ha hb
    cases b with
    | nil =>
      simp at h
      exact absurd (by simp [h.1]) ha
    | cons e bs =>
      simp only [List.cons_append, List.cons.injEq] at h
      have hd : d ∉ ({':'} : Set Char) → True := fun _ => trivial
      have ha' : ':' ∉ as := fun hm => ha (List.mem_cons.2 (Or.inr hm))
      have hb' : ':' ∉ bs := fun hm => hb (List.mem_cons.2 (Or.inr hm))
      obtain ⟨hab, hxy⟩ := ih bs x y h.2 ha' hb'
      exact ⟨by rw [h.1, hab], hxy⟩

theorem dropWhile_all_nil {p : Char → Bool} : ∀ l : Str, (∀ c ∈ l, p c = true) →
    l.dropWhile p = [] := by
  intro l
  induction l with
  | nil => simp
  | cons c t ih =>
    intro h
    rw [List.dropWhile_cons, if_pos (h c (List.mem_cons_self c t))]
    exact ih (fun d hd => h d (List.mem_cons.2 (Or.inr hd)))

theorem dropWhile_head_fails {p : Char → Bool} : ∀ (l : Str) (c : Char) (t : Str),
    l.dropWhile p = c :: t → p c = false := by
  intro l
  induction l with
  | nil => intro c t h; simp at h
  | cons d ds ih =>
    intro c t h
    rw [List.dropWhile_cons] at h
    split at h
    · exact ih c t h
    case isFalse hf =>
      have hdc : d = c := (List.cons.inj h).1
      rw [← hdc]
      cases hpd : p d
      · rfl
      · exact absurd hpd hf

theorem isPrefixOf_decomp : ∀ (a b : Str), a.isPrefixOf b = true → ∃ t, b = a ++ t := by
  intro a
  induction a with
  | nil => intro b _; exact ⟨b, rfl⟩
  | cons c as ih =>
    intro b h
    cases b with
    | nil => simp [List.isPrefixOf] at h
    | cons d bs =>
      simp only [List.isPrefixOf, Bool.and_eq_true, beq_iff_eq] at h
      obtain ⟨t, ht⟩ := ih bs h.2
      exact ⟨t, by rw [h.1, ht]; rfl⟩


/-- The path-and-params portion after the authority of a normalized URL
always survives another params round-trip. -/
theorem normalizeL_path_good (u : Str) (m : Str)
    (hn0 : normalizeL u = "https:".toList ++ '/' :: '/' :: m) :
    goodp (m.dropWhile netChar) := by
  have hok : ∀ c ∈ m, okC c := by
    intro c hc
    refine normalizeL_okC u c ?_
    rw [hn0]
    simp [hc]
  have hn := hn0
  rw [normalizeL_eq] at hn
  set s := stripUnsafe (u.dropWhile c0OrSpace) with hsdef
  set sc := (splitScheme s).1 with hscdef
  set r1 := (splitScheme s).2 with hr1def
  set nl := (splitNetloc r1).1 with hnldef
  set r2 := (splitNetloc r1).2 with hr2def
  set path := (r2.takeWhile (· ≠ '#')).takeWhile (· ≠ '?') with hpathdef
  simp only [unparseL] at hn
  rw [show ((splitParamsP path).1, (splitParamsP path).2) = splitParamsP path
    from rfl] at hn
  set u1 := rejoinP (splitParamsP path) with hu1def
  have hgood1 : goodp u1 := goodp_rejoin_split path
  have hexpose : "https:".toList ++ '/' :: '/' :: m
      = 'h' :: 't' :: 't' :: 'p' :: 's' :: ':' :: '/' :: '/' :: m := rfl
  split at hn
  case isTrue hscE =>
    -- no scheme was recognised at parse time
    have hscnil : sc = [] := by
      cases hsc : sc with
      | nil => rfl
      | cons a t => rw [hsc] at hscE; simp [List.isEmpty] at hscE
    split at hn
    case isTrue hcond =>
      rw [hexpose] at hn
      exact absurd (List.cons.inj hn).1 (by decide)
    case isFalse hcond =>
      -- the bare path-with-params would be the whole output: impossible,
      -- since the output then re-parses with an "https" scheme
      exfalso
      obtain ⟨t0, ht0⟩ := rejoin_split_pre path
      rw [← hu1def] at ht0
      have hpe : ∃ t1, r2 = path ++ t1 := by
        refine ⟨(r2.takeWhile (· ≠ '#')).dropWhile (· ≠ '?')
          ++ r2.dropWhile (· ≠ '#'), ?_⟩
        rw [hpathdef, ← List.append_assoc, List.takeWhile_append_dropWhile,
          List.takeWhile_append_dropWhile]
      obtain ⟨t1, ht1⟩ := hpe
      have hu1h : u1 = 'h' :: 't' :: 't' :: 'p' :: 's' :: ':' :: '/' :: '/' :: m :=
        hn.trans hexpose
      by_cases hb2 : r1.take 2 = ['/', '/']
      · -- the `//` branch: `r2` would start with a non-netloc character
        have hr2eq : r2 = (r1.drop 2).dropWhile netChar := by
          rw [hr2def, splitNetloc, if_pos hb2]
        have hr2h : r2 = 'h' :: ('t' :: 't' :: 'p' :: 's' :: ':' :: '/' :: '/'
            :: (m ++ t0 ++ t1)) := by
          rw [ht1, ht0, hu1h]
          simp
        have hfail : netChar 'h' = false :=
          dropWhile_head_fails (r1.drop 2) 'h' _ (hr2eq.symm.trans hr2h)
        exact absurd hfail (by decide)
      · -- no `//`: then the whole stripped input starts with "https:"
        have hr2r1 : r2 = r1 := by
          rw [hr2def, splitNetloc, if_neg hb2]
        have hr1s : r1 = s := by
          rw [hr1def]
          exact splitScheme_nil_snd s (by rw [← hscdef]; exact hscnil)
        have hs2 : s = "https:".toList ++ ('/' :: '/' :: (m ++ t0 ++ t1)) := by
          rw [← hr1s, ← hr2r1, ht1, ht0, hu1h]
          simp
        have hsp := splitScheme_https ('/' :: '/' :: (m ++ t0 ++ t1))
        rw [← hs2] at hsp
        have hscv : sc = "https".toList := by rw [hscdef, hsp]
        rw [hscv] at hscnil
        exact absurd hscnil (by decide)
  case isFalse hscNE =>
    -- a scheme was recognised; it can only be "https"
    rw [hexpose] at hn
    have hcc := colon_cancel sc "https".toList _ ('/' :: '/' :: m) hn
      (fun hmem => splitScheme_fst_no_colon s ':' (hscdef ▸ hmem) rfl)
      (by decide)
    have hu2m := hcc.2
    split at hu2m
    case isTrue hcond =>
      -- authority re-emitted: m = nl ++ (possibly '/'-prefixed) path
      have hm : nl ++ _ = m := (List.cons.inj (List.cons.inj hu2m).2).2
      have hnlall : ∀ c ∈ nl, netChar c = true :=
        fun c hc => (mem_splitNetloc_fst r1 (hnldef ▸ hc)).2
      rw [← hm, List.dropWhile_append, dropWhile_all_nil nl hnlall]
      have hie : (([] : Str).isEmpty = true) := rfl
      rw [if_pos hie]
      split
      case isTrue hw =>
        rw [List.dropWhile_cons, if_neg (by decide)]
        exact goodp_cons_slash u1 hgood1
      case isFalse hw =>
        by_cases hu1nil : u1 = []
        · rw [hu1nil, List.dropWhile_nil]
          exact goodp_nil
        · obtain ⟨a, t, hat⟩ := List.exists_cons_of_ne_nil hu1nil
          have hie2 : u1.isEmpty = false := by rw [hat]; rfl
          have hto : u1.take 1 = ['/'] := by
            by_contra hne
            exact hw (by rw [hie2]; simp [hne])
          have ha : a = '/' := by
            rw [hat] at hto
            exact (List.cons.inj hto).1
          rw [hat, ha, List.dropWhile_cons, if_neg (by decide)]
          rw [hat, ha] at hgood1
          exact hgood1
    case isFalse hcond =>
      -- no authority re-emitted: m is exactly the path-with-params
      have hu1m : u1 = '/' :: '/' :: m := hu2m
      have hsplit : u1 = ('/' :: '/' :: m.takeWhile netChar)
          ++ m.dropWhile netChar := by
        rw [hu1m]
        simp [List.takeWhile_append_dropWhile]
      refine goodp_suffix u1 _ _ hgood1 hsplit ?_
      rcases hz : m.dropWhile netChar with _ | ⟨c, t⟩
      · exact Or.inl rfl
      · have hcm : c ∈ m := by
          have hcd : c ∈ m.dropWhile netChar := by
            rw [hz]
            exact List.mem_cons_self c t
          exact (List.dropWhile_sublist netChar).mem hcd
        have hfail : netChar c = false := dropWhile_head_fails m c t hz
        rw [netChar] at hfail
        simp only [Bool.not_eq_false', Bool.or_eq_true, decide_eq_true_eq] at hfail
        rcases hfail with (h | h) | h
        · exact Or.inr ⟨t, by rw [h]⟩
        · exact absurd h (hok c hcm).1
        · exact absurd h (hok c hcm).2.1

/-- A well-formed `https://host/path` URL whose characters are clean, whose
host is non-empty and whose path survives the params round-trip is a fixed
point of `normalize_url`. -/
theorem normalizeL_reparse (m : Str)
    (hok : ∀ c ∈ m, okC c)
    (hnl : m.takeWhile netChar ≠ [])
    (hgood : goodp (m.dropWhile netChar)) :
    normalizeL ("https:".toList ++ '/' :: '/' :: m)
      = "https:".toList ++ '/' :: '/' :: m := by
  have hex : "https:".toList ++ '/' :: '/' :: m
      = 'h' :: 't' :: 't' :: 'p' :: 's' :: ':' :: '/' :: '/' :: m := rfl
  rw [normalizeL_eq]
  have h1 : ("https:".toList ++ '/' :: '/' :: m).dropWhile c0OrSpace
      = "https:".toList ++ '/' :: '/' :: m := by
    rw [hex, List.dropWhile_cons, if_neg (by decide)]
  rw [h1]
  have h2 : stripUnsafe ("https:".toList ++ '/' :: '/' :: m)
      = "https:".toList ++ '/' :: '/' :: m := by
    rw [stripUnsafe, List.filter_eq_self]
    intro a ha
    rw [hex] at ha
    simp only [List.mem_cons] at ha
    rcases ha with h|h|h|h|h|h|h|h|h
    · rw [h]; decide
    · rw [h]; decide
    · rw [h]; decide
    · rw [h]; decide
    · rw [h]; decide
    · rw [h]; decide
    · rw [h]; decide
    · rw [h]; decide
    · obtain ⟨_, _, h3, h4, h5⟩ := hok a h
      simp [h3, h4, h5]
  rw [h2]
  simp only [splitScheme_https]
  have h4 : splitNetloc ('/' :: '/' :: m)
      = (m.takeWhile netChar, m.dropWhile netChar) := by
    rw [splitNetloc,
      if_pos (show List.take 2 ('/' :: '/' :: m) = ['/', '/'] from rfl)]
    rfl
  simp only [h4]
  have hz1 : (m.dropWhile netChar).takeWhile (· ≠ '#') = m.dropWhile netChar := by
    apply takeWhile_eq_self
    intro c hc
    have hcm : c ∈ m := (List.dropWhile_sublist netChar).mem hc
    simp [(hok c hcm).2.1]
  rw [hz1]
  have hz2 : (m.dropWhile netChar).takeWhile (· ≠ '?') = m.dropWhile netChar := by
    apply takeWhile_eq_self
    intro c hc
    have hcm : c ∈ m := (List.dropWhile_sublist netChar).mem hc
    simp [(hok c hcm).1]
  rw [hz2]
  simp only [unparseL]
  rw [show ((splitParamsP (m.dropWhile netChar)).1,
      (splitParamsP (m.dropWhile netChar)).2)
      = splitParamsP (m.dropWhile netChar) from rfl]
  have hg : rejoinP (splitParamsP (m.dropWhile netChar)) = m.dropWhile netChar :=
    hgood
  rw [hg]
  have hne : (m.takeWhile netChar).isEmpty = false := by
    cases hq : m.takeWhile netChar with
    | nil => exact absurd hq hnl
    | cons a t => rfl
  rw [hne]
  simp only [Bool.not_false, Bool.true_or, if_true]
  rw [if_neg (by decide : ¬("https".toList.isEmpty = true))]
  have hw : (if (!(m.dropWhile netChar).isEmpty
        && decide ((m.dropWhile netChar).take 1 ≠ ['/'])) = true
      then '/' :: m.dropWhile netChar else m.dropWhile netChar)
      = m.dropWhile netChar := by
    rcases hzz : m.dropWhile netChar with _ | ⟨c, t⟩
    · rfl
    · have hcm : c ∈ m := by
        have hcd : c ∈ m.dropWhile netChar := by
          rw [hzz]
          exact List.mem_cons_self c t
        exact (List.dropWhile_sublist netChar).mem hcd
      have hfail : netChar c = false := dropWhile_head_fails m c t hzz
      rw [netChar] at hfail
      simp only [Bool.not_eq_false', Bool.or_eq_true, decide_eq_true_eq] at hfail
      have hcs : c = '/' := by
        rcases hfail with (h | h) | h
        · exact h
        · exact absurd h (hok c hcm).1
        · exact absurd h (hok c hcm).2.1
      rw [hcs]
      simp
  rw [hw, List.takeWhile_append_dropWhile]
  rfl

/-- On every URL accepted by the crawl filter, `normalize_url` is
idempotent. -/
theorem normalizeL_idem_of_allowed (u : Str) (ha : allowed u = true) :
    normalizeL (normalizeL u) = normalizeL u := by
  have hpre : allowedPre.isPrefixOf (normalizeL u) = true := by
    simp only [allowed] at ha
    cases hp : allowedPre.isPrefixOf (normalizeL u) with
    | false => rw [hp] at ha; simp at ha
    | true => rfl
  obtain ⟨t2, ht2⟩ := isPrefixOf_decomp allowedPre (normalizeL u) hpre
  have hform : normalizeL u = "https:".toList ++ '/' :: '/'
      :: ("krpc.github.io/krpc/python".toList ++ t2) := by
    rw [ht2]
    rfl
  have hok : ∀ c ∈ "krpc.github.io/krpc/python".toList ++ t2, okC c := by
    intro c hc
    refine normalizeL_okC u c ?_
    rw [hform]
    exact List.mem_append_right _
      (List.mem_cons_of_mem _ (List.mem_cons_of_mem _ hc))
  have hnl : ("krpc.github.io/krpc/python".toList ++ t2).takeWhile netChar
      ≠ [] := by
    intro hcontra
    rw [show "krpc.github.io/krpc/python".toList ++ t2
      = 'k' :: ("rpc.github.io/krpc/python".toList ++ t2) from rfl] at hcontra
    rw [List.takeWhile_cons, if_pos (by decide)] at hcontra
    exact absurd hcontra (by simp)
  have hgood := normalizeL_path_good u _ hform
  rw [hform]
  exact normalizeL_reparse _ hok hnl hgood

theorem takeWhile_all_append (pred : Char → Bool) : ∀ (xs ys : Str),
    (∀ c ∈ xs, pred c = true) →
    (xs ++ ys).takeWhile pred = xs ++ ys.takeWhile pred := by
  intro xs
  induction xs with
  | nil => intro ys _; simp
  | cons a t ih =>
    intro ys hall
    rw [List.cons_append, List.takeWhile_cons,
      if_pos (hall a (List.mem_cons_self a t)),
      ih ys (fun c hc => hall c (List.mem_cons_of_mem a hc)),
      List.cons_append]

/-- On a well-formed `https://host/path?query#fragment` URL whose host and
path are clean, `normalize_url` returns exactly `https://host/path`:
it strips the query and the fragment and preserves everything else. -/
theorem normalizeL_strips (h p q f : Str)
    (hh : h ≠ []) (hhc : ∀ c ∈ h, netChar c = true ∧ okC c)
    (hpc : ∀ c ∈ p, okC c)
    (hq : ∀ c ∈ q, c ≠ '\t' ∧ c ≠ '\x0d' ∧ c ≠ '\n')
    (hf : ∀ c ∈ f, c ≠ '\t' ∧ c ≠ '\x0d' ∧ c ≠ '\n')
    (hgood : goodp ('/' :: p)) :
    normalizeL ("https://".toList ++ h ++ '/' :: p ++ '?' :: q ++ '#' :: f)
      = "https://".toList ++ h ++ '/' :: p := by
  have hM : "https://".toList ++ h ++ '/' :: p ++ '?' :: q ++ '#' :: f
      = "https:".toList ++ '/' :: '/' :: (h ++ '/' :: (p ++ '?' :: (q ++ '#' :: f))) := by
    rw [show ("https://".toList : Str) = "https:".toList ++ ['/', '/'] from rfl]
    simp
  rw [hM, normalizeL_eq]
  have h1 : ("https:".toList ++ '/' :: '/' :: (h ++ '/' :: (p ++ '?' :: (q ++ '#' :: f)))).dropWhile c0OrSpace
      = "https:".toList ++ '/' :: '/' :: (h ++ '/' :: (p ++ '?' :: (q ++ '#' :: f))) := by
    rw [show "https:".toList ++ '/' :: '/' :: (h ++ '/' :: (p ++ '?' :: (q ++ '#' :: f)))
      = 'h' :: ('t' :: 't' :: 'p' :: 's' :: ':' :: '/' :: '/' :: (h ++ '/' :: (p ++ '?' :: (q ++ '#' :: f)))) from rfl]
    rw [List.dropWhile_cons, if_neg (by decide)]
  rw [h1]
  have h2 : stripUnsafe ("https:".toList ++ '/' :: '/' :: (h ++ '/' :: (p ++ '?' :: (q ++ '#' :: f))))
      = "https:".toList ++ '/' :: '/' :: (h ++ '/' :: (p ++ '?' :: (q ++ '#' :: f))) := by
    rw [stripUnsafe, List.filter_eq_self]
    intro a ha
    have hcomp : a ≠ '\t' ∧ a ≠ '\x0d' ∧ a ≠ '\n' := by
      rw [show "https:".toList ++ '/' :: '/' :: (h ++ '/' :: (p ++ '?' :: (q ++ '#' :: f)))
        = 'h' :: ('t' :: 't' :: 'p' :: 's' :: ':' :: '/' :: '/' :: (h ++ '/' :: (p ++ '?' :: (q ++ '#' :: f)))) from rfl] at ha
      simp only [List.mem_cons, List.mem_append] at ha
      rcases ha with hl|hl|hl|hl|hl|hl|hl|hl|hm|hl|hm2|hl|hm3|hl|hm4
      · subst hl; exact ⟨by decide, by decide, by decide⟩
      · subst hl; exact ⟨by decide, by decide, by decide⟩
      · subst hl; exact ⟨by decide, by decide, by decide⟩
      · subst hl; exact ⟨by decide, by decide, by decide⟩
      · subst hl; exact ⟨by decide, by decide, by decide⟩
      · subst hl; exact ⟨by decide, by decide, by decide⟩
      · subst hl; exact ⟨by decide, by decide, by decide⟩
      · subst hl; exact ⟨by decide, by decide, by decide⟩
      · exact ⟨(hhc a hm).2.2.2.1, (hhc a hm).2.2.2.2.1, (hhc a hm).2.2.2.2.2⟩
      · subst hl; exact ⟨by decide, by decide, by decide⟩
      · exact ⟨(hpc a hm2).2.2.1, (hpc a hm2).2.2.2.1, (hpc a hm2).2.2.2.2⟩
      · subst hl; exact ⟨by decide, by decide, by decide⟩
      · exact hq a hm3
      · subst hl; exact ⟨by decide, by decide, by decide⟩
      · exact hf a hm4
    simp [hcomp.1, hcomp.2.1, hcomp.2.2]
  rw [h2]
  simp only [splitScheme_https]
  have h4 : splitNetloc ('/' :: '/' :: (h ++ '/' :: (p ++ '?' :: (q ++ '#' :: f))))
      = (h, '/' :: (p ++ '?' :: (q ++ '#' :: f))) := by
    rw [splitNetloc, if_pos (show List.take 2 ('/' :: '/' :: (h ++ '/' :: (p ++ '?' :: (q ++ '#' :: f)))) = ['/', '/'] from rfl)]
    show (List.takeWhile netChar (h ++ '/' :: (p ++ '?' :: (q ++ '#' :: f))),
      List.dropWhile netChar (h ++ '/' :: (p ++ '?' :: (q ++ '#' :: f))))
      = (h, '/' :: (p ++ '?' :: (q ++ '#' :: f)))
    have tA : List.takeWhile netChar (h ++ '/' :: (p ++ '?' :: (q ++ '#' :: f))) = h := by
      rw [takeWhile_all_append netChar h _ (fun c hc => (hhc c hc).1),
        List.takeWhile_cons, if_neg (by decide), List.append_nil]
    have tB : List.dropWhile netChar (h ++ '/' :: (p ++ '?' :: (q ++ '#' :: f)))
        = '/' :: (p ++ '?' :: (q ++ '#' :: f)) := by
      rw [List.dropWhile_append, dropWhile_all_nil h (fun c hc => (hhc c hc).1)]
      have hie : (([] : Str).isEmpty = true) := rfl
      rw [if_pos hie, List.dropWhile_cons, if_neg (by decide)]
    rw [Prod.mk.injEq]
    exact ⟨tA, tB⟩
  simp only [h4]
  have hpath : ((('/' :: (p ++ '?' :: (q ++ '#' :: f))).takeWhile (· ≠ '#')).takeWhile (· ≠ '?'))
      = '/' :: p := by
    have s1 : ('/' :: (p ++ '?' :: (q ++ '#' :: f))).takeWhile (· ≠ '#')
        = '/' :: (p ++ '?' :: ((q ++ '#' :: f).takeWhile (· ≠ '#'))) := by
      rw [List.takeWhile_cons, if_pos (by decide),
        takeWhile_all_append _ p _ (fun c hc => by simp [(hpc c hc).2.1]),
        List.takeWhile_cons, if_pos (by decide)]
    rw [s1, List.takeWhile_cons, if_pos (by decide),
      takeWhile_all_append _ p _ (fun c hc => by simp [(hpc c hc).1]),
      List.takeWhile_cons, if_neg (by decide), List.append_nil]
  rw [hpath]
  simp only [unparseL]
  rw [show ((splitParamsP ('/' :: p)).1, (splitParamsP ('/' :: p)).2)
    = splitParamsP ('/' :: p) from rfl]
  have hg : rejoinP (splitParamsP ('/' :: p)) = '/' :: p := hgood
  rw [hg]
  have hne : h.isEmpty = false := by
    cases hcs : h with
    | nil => exact absurd hcs hh
    | cons a t => rfl
  rw [hne]
  simp only [Bool.not_false, Bool.true_or, if_true]
  rw [if_neg (by decide : ¬("https".toList.isEmpty = true))]
  have hw : (if (!(('/' :: p : Str)).isEmpty
        && decide ((('/' :: p : Str)).take 1 ≠ ['/'])) = true
      then '/' :: '/' :: p else '/' :: p) = '/' :: p := by
    simp
  rw [hw]
  rfl

/-- C7 counterexample: on the URL `"/////"` — which contains neither a query
nor a fragment — `normalize_url` both changes the string and fails to be
idempotent (`normalize("/////") = "///"` yet `normalize("///") = "/"`),
refuting the claim that normalize is idempotent on every URL and strips
only query and fragment. -/
theorem normalize_not_idempotent_counterexample :
    ('?' ∉ "/////".toList) ∧ ('#' ∉ "/////".toList) ∧
    normalizeL "/////".toList ≠ "/////".toList ∧
    normalizeL (normalizeL "/////".toList) ≠ normalizeL "/////".toList := by
  decide

/-- C7 (amended): `normalize_url` is idempotent on every URL accepted by the
crawl filter `allowed`, and on every well-formed absolute
`https://host/path?query#fragment` URL — non-empty host of authority
characters, path free of `?`, `#` and the control characters that `urlsplit`
strips, path stable under the params split, query and fragment free of those
control characters — it returns exactly `https://host/path`, removing the
query and fragment and preserving scheme, host and path. -/
theorem normalize_idem_on_allowed_and_strips_query_fragment :
    (∀ u : Str, allowed u = true → normalizeL (normalizeL u) = normalizeL u) ∧
    (∀ h p q f : Str, h ≠ [] → (∀ c ∈ h, netChar c = true ∧ okC c) →
      (∀ c ∈ p, okC c) →
      (∀ c ∈ q, c ≠ '\t' ∧ c ≠ '\x0d' ∧ c ≠ '\n') →
      (∀ c ∈ f, c ≠ '\t' ∧ c ≠ '\x0d' ∧ c ≠ '\n') →
      goodp ('/' :: p) →
      normalizeL ("https://".toList ++ h ++ '/' :: p ++ '?' :: q ++ '#' :: f)
        = "https://".toList ++ h ++ '/' :: p) :=
  ⟨normalizeL_idem_of_allowed,
   fun h p q f hh hhc hpc hq hf hgood =>
     normalizeL_strips h p q f hh hhc hpc hq hf hgood⟩

/-- Witness for C7: concrete instantiation at the crawl seed URL and at
`https://krpc.github.io/krpc/python/a.html?x=1#frag`. -/
theorem normalize_idem_on_allowed_and_strips_query_fragment_witness :
    normalizeL (normalizeL ROOT_URL) = normalizeL ROOT_URL ∧
    normalizeL ("https://".toList ++ "krpc.github.io".toList
        ++ '/' :: "krpc/python/a.html".toList ++ '?' :: "x=1".toList
        ++ '#' :: "frag".toList)
      = "https://".toList ++ "krpc.github.io".toList
        ++ '/' :: "krpc/python/a.html".toList :=
  ⟨normalize_idem_on_allowed_and_strips_query_fragment.1 ROOT_URL (by decide),
   normalize_idem_on_allowed_and_strips_query_fragment.2
     "krpc.github.io".toList "krpc/python/a.html".toList
     "x=1".toList "frag".toList
     (by decide) (by unfold okC; decide) (by unfold okC; decide)
     (by decide) (by decide)
     (by decide : rejoinP (splitParamsP ('/' :: "krpc/python/a.html".toList))
       = '/' :: "krpc/python/a.html".toList)⟩

/-- Witness for C4: the single hit of searching "vessel" in the one-page
fixture store carries the collapsed snippet window around the occurrence. -/
theorem search_snippet_window_witness :
    (⟨1, "kRPC".toList, "python.html".toList,
        "https://krpc.github.io/krpc/python.html".toList,
        "vessel docs".toList⟩ : SearchHit)
      ∈ (searchSt wStore "vessel".toList 5 0 nullEnv).2 ∧
    ∃ pg, pg ∈ ((ensure_freshSt wStore 0 nullEnv).1).pages.map Prod.snd
      ∧ (⟨1, "kRPC".toList, "python.html".toList,
          "https://krpc.github.io/krpc/python.html".toList,
          "vessel docs".toList⟩ : SearchHit).slug = pg.slug
      ∧ (⟨1, "kRPC".toList, "python.html".toList,
          "https://krpc.github.io/krpc/python.html".toList,
          "vessel docs".toList⟩ : SearchHit).snippet
        = snippetSpec (lowerStr (stripBoth "vessel".toList)) pg :=
  ⟨by decide,
   search_snippet_window wStore "vessel".toList 5 0 nullEnv
     ⟨1, "kRPC".toList, "python.html".toList,
       "https://krpc.github.io/krpc/python.html".toList,
       "vessel docs".toList⟩ (by decide)⟩
